import Mathlib

/-!
# DebatePlatform core: a shallow embedding of `src/cpp/core.hpp` / `src/cpp/core.cpp`

The C++ class `DebateCore` owns four vectors, one counter and two hash maps.
Here the object is a record, every member function is a function from the
record (and its arguments) to the new record and/or the returned value.

Modelling conventions
* `int` is `Int`.  The only arithmetic the class performs on an `int` is
  `next_id++` and `std::max / std::min` against the literals 1 and 10; signed
  overflow of `next_id` is undefined behaviour in C++ and is outside the model.
* `std::string` is `String`; text algorithms work on its character list.  A
  C++ string is a byte sequence; for UTF-8 text, substring search and ASCII
  lowercasing on bytes and on code points agree (`::tolower` in the "C" locale
  changes `A`..`Z` only).
* `std::chrono::system_clock::now()` is a clock reading handed to the function
  as the extra argument `now`.
* `float` values are never computed with, only copied; they are carried as
  bit patterns (`Float32`).
* `std::unordered_map<std::string, std::vector<int>>` is an association list;
  the only access path of the source is `map[word].push_back(id)`.
-/

namespace DebatePlatform

/-! ## Data model (`core.hpp`) -/

/-- Clock reading of `std::chrono::system_clock`, in ticks. -/
abbrev Time := Nat

/-- A C++ `float`, carried as its 32-bit pattern; the store only copies floats. -/
structure Float32 where
  bits : Nat
deriving DecidableEq, Repr

/-- The struct `Topic`. -/
structure Topic where
  id : Int
  title : String
  description : String
  complexity_level : Int
  category : String
  tags : List String
deriving DecidableEq, Repr

/-- The struct `Note`. -/
structure Note where
  id : Int
  content : String
  topic_tag : String
  created_at : Time
  updated_at : Time
  linked_notes : List Int
  note_type : String
deriving DecidableEq, Repr

/-- The struct `UserBelief`. -/
structure UserBelief where
  topic_id : Int
  conviction_level : Int
  position : String
  recorded_at : Time
deriving DecidableEq, Repr

/-- The struct `DrawingStroke`. -/
structure DrawingStroke where
  points : List (Float32 × Float32)
  stroke_width : Float32
  color : String
  timestamp : Time
deriving DecidableEq, Repr

/-- The struct `Drawing`. -/
structure Drawing where
  id : Int
  strokes : List DrawingStroke
  canvas_width : Float32
  canvas_height : Float32
  associated_note_id : String
deriving DecidableEq, Repr

/-- A `std::unordered_map<std::string, std::vector<int>>` as an association
list with at most one entry per key (entry order is not observable in C++). -/
abbrev Index := List (String × List Int)

/-- The private members of the class `DebateCore`. -/
structure DebateCore where
  topics : List Topic
  notes : List Note
  beliefs : List UserBelief
  drawings : List Drawing
  next_id : Int
  topic_index : Index
  note_index : Index
deriving DecidableEq, Repr

/-! ## Text helpers (`<cctype>`, `<string>`, `<sstream>`) -/

/-- The C function `::tolower` in the "C" locale: `A`..`Z` move to `a`..`z`,
every other character is returned unchanged. -/
def tolower (c : Char) : Char :=
  if 65 ≤ c.toNat ∧ c.toNat ≤ 90 then Char.ofNat (c.toNat + 32) else c

/-- The call `std::transform(s.begin(), s.end(), s.begin(), ::tolower)`. -/
def to_lower (s : String) : String :=
  ⟨s.data.map tolower⟩

/-- The scan of `std::string::find(needle)` from position 0 on character lists:
the first index at which `needle` starts, `none` standing for `npos`. -/
def findChars : List Char → List Char → Option Nat
  | [], needle => if needle = [] then some 0 else none
  | c :: cs, needle =>
    if needle.isPrefixOf (c :: cs) then some 0
    else (findChars cs needle).map (· + 1)

/-- The member `std::string::find`, with `none` for `std::string::npos`. -/
def find (hay needle : String) : Option Nat :=
  findChars hay.data needle.data

/-- The C function `isspace` in the "C" locale, which `operator>>` uses to
delimit words: space, `\t`, `\n`, `\v`, `\f`, `\r`. -/
def isspace (c : Char) : Bool :=
  c.toNat = 32 || (9 ≤ c.toNat && c.toNat ≤ 13)

/-- The loop `while (ss >> word)` over the remaining characters; `cur` holds
the characters of the word being read. -/
def wordsAux : List Char → List Char → List (List Char)
  | [], cur => if cur = [] then [] else [cur]
  | c :: cs, cur =>
    if isspace c then
      (if cur = [] then wordsAux cs [] else cur :: wordsAux cs [])
    else wordsAux cs (cur ++ [c])

/-- The words `std::stringstream ss(text); while (ss >> word)` reads, each
already passed through `::tolower` as the loop bodies of the source do. -/
def tokens (text : String) : List String :=
  (wordsAux text.data []).map (fun w => to_lower ⟨w⟩)

/-- The value `index[word]` would have after default insertion. -/
def Index.get (m : Index) (word : String) : List Int :=
  match m.find? (fun e => e.1 = word) with
  | some e => e.2
  | none => []

/-- The statement `index[word].push_back(id)`. -/
def Index.push : Index → String → Int → Index
  | [], word, id => [(word, [id])]
  | e :: m, word, id =>
    if e.1 = word then (e.1, e.2 ++ [id]) :: m else e :: Index.push m word id

/-- The loop `while (ss >> word) { tolower; index[word].push_back(id); }`. -/
def Index.pushAll (m : Index) (ws : List String) (id : Int) : Index :=
  ws.foldl (fun acc w => Index.push acc w id) m

/-- The expression `std::max(1, std::min(10, x))`. -/
def clamp (x : Int) : Int :=
  max 1 (min 10 x)

namespace DebateCore

/-! ## Member functions (`core.cpp`) -/

/-- The state before the constructor body runs: empty containers, `next_id(1)`. -/
def empty : DebateCore :=
  { topics := [], notes := [], beliefs := [], drawings := [], next_id := 1,
    topic_index := [], note_index := [] }

/-- The text `title + " " + description + " " + category` of a topic. -/
def topic_text (title description category : String) : String :=
  title ++ " " ++ description ++ " " ++ category

/-- The text `content + " " + topic_tag` of a note. -/
def note_text (content topic_tag : String) : String :=
  content ++ " " ++ topic_tag

/-- `DebateCore::create_topic`: the new state and the returned id. -/
def create_topic (s : DebateCore) (title description : String) (complexity : Int)
    (category : String) : DebateCore × Int :=
  let topic : Topic :=
    { id := s.next_id, title := title, description := description,
      complexity_level := clamp complexity, category := category, tags := [] }
  ({ s with
      next_id := s.next_id + 1
      topics := s.topics ++ [topic]
      topic_index :=
        Index.pushAll s.topic_index (tokens (topic_text title description category)) topic.id },
   topic.id)

/-- `DebateCore::get_topics_by_complexity`. -/
def get_topics_by_complexity (s : DebateCore) (min_level max_level : Int) : List Topic :=
  s.topics.filter (fun topic =>
    decide (topic.complexity_level ≥ min_level) && decide (topic.complexity_level ≤ max_level))

/-- `DebateCore::search_topics`. -/
def search_topics (s : DebateCore) (query : String) : List Topic :=
  let lower_query := to_lower query
  s.topics.filter (fun topic =>
    let searchable := to_lower (topic_text topic.title topic.description topic.category)
    (find searchable lower_query).isSome)

/-- `DebateCore::create_note`: the new state and the returned id. -/
def create_note (s : DebateCore) (content topic_tag type : String) (now : Time) :
    DebateCore × Int :=
  let note : Note :=
    { id := s.next_id, content := content, topic_tag := topic_tag, note_type := type,
      created_at := now, updated_at := now, linked_notes := [] }
  ({ s with
      next_id := s.next_id + 1
      notes := s.notes ++ [note]
      note_index := Index.pushAll s.note_index (tokens (note_text content topic_tag)) note.id },
   note.id)

/-- The statement `if (std::find(linked.begin(), linked.end(), id) == linked.end())
linked.push_back(id);` on the `linked_notes` of `note`. -/
def push_link (note : Note) (id : Int) : Note :=
  if id ∈ note.linked_notes then note
  else { note with linked_notes := note.linked_notes ++ [id] }

/-- One round of the loop body of `DebateCore::link_notes` on `note`: the two
`if` statements run one after the other on the same (possibly updated) note. -/
def link_step (note1_id note2_id : Int) (note : Note) : Note :=
  let note := if note.id = note1_id then push_link note note2_id else note
  if note.id = note2_id then push_link note note1_id else note

/-- `DebateCore::link_notes`. -/
def link_notes (s : DebateCore) (note1_id note2_id : Int) : DebateCore :=
  { s with notes := s.notes.map (link_step note1_id note2_id) }

/-- A loop `for (n : notes) if (n.id == id) { ...; break; }`: the first note
with the id, if any. -/
def find_note (notes : List Note) (id : Int) : Option Note :=
  notes.find? (fun n => n.id = id)

/-- `DebateCore::get_linked_notes`. -/
def get_linked_notes (s : DebateCore) (note_id : Int) : List Note :=
  match find_note s.notes note_id with
  | none => []
  | some note => note.linked_notes.filterMap (fun linked_id => find_note s.notes linked_id)

/-- `DebateCore::search_notes`. -/
def search_notes (s : DebateCore) (query : String) : List Note :=
  let lower_query := to_lower query
  s.notes.filter (fun note =>
    let searchable := to_lower (note_text note.content note.topic_tag)
    (find searchable lower_query).isSome)

/-- `DebateCore::record_belief`. -/
def record_belief (s : DebateCore) (topic_id conviction : Int) (position : String)
    (now : Time) : DebateCore :=
  let belief : UserBelief :=
    { topic_id := topic_id, conviction_level := clamp conviction, position := position,
      recorded_at := now }
  { s with beliefs := s.beliefs ++ [belief] }

/-- `DebateCore::get_user_belief`: the scan runs from `rbegin()` to `rend()`. -/
def get_user_belief (s : DebateCore) (topic_id : Int) (now : Time) : UserBelief :=
  match s.beliefs.reverse.find? (fun b => b.topic_id = topic_id) with
  | some b => b
  | none =>
    { topic_id := topic_id, conviction_level := 5, position := "neutral", recorded_at := now }

/-- `DebateCore::get_belief_history`. -/
def get_belief_history (s : DebateCore) (topic_id : Int) : List UserBelief :=
  s.beliefs.filter (fun belief => belief.topic_id = topic_id)

/-- `DebateCore::create_drawing`: the new state and the returned id. -/
def create_drawing (s : DebateCore) (width height : Float32) (note_id : String) :
    DebateCore × Int :=
  let drawing : Drawing :=
    { id := s.next_id, strokes := [], canvas_width := width, canvas_height := height,
      associated_note_id := note_id }
  ({ s with next_id := s.next_id + 1, drawings := s.drawings ++ [drawing] }, drawing.id)

/-- The loop of `DebateCore::add_stroke_to_drawing`: the first drawing with the
id receives the stroke, then `break`. -/
def add_stroke_loop (drawing_id : Int) (stroke : DrawingStroke) : List Drawing → List Drawing
  | [] => []
  | drawing :: rest =>
    if drawing.id = drawing_id then
      { drawing with strokes := drawing.strokes ++ [stroke] } :: rest
    else drawing :: add_stroke_loop drawing_id stroke rest

/-- `DebateCore::add_stroke_to_drawing`. -/
def add_stroke_to_drawing (s : DebateCore) (drawing_id : Int)
    (points : List (Float32 × Float32)) (width : Float32) (color : String) (now : Time) :
    DebateCore :=
  let stroke : DrawingStroke :=
    { points := points, stroke_width := width, color := color, timestamp := now }
  { s with drawings := add_stroke_loop drawing_id stroke s.drawings }

/-- `DebateCore::get_drawing`.  The local `Drawing empty;` leaves the two
`float` members uninitialised; `junk_w`, `junk_h` stand for whatever they hold. -/
def get_drawing (s : DebateCore) (drawing_id : Int) (junk_w junk_h : Float32) : Drawing :=
  match s.drawings.find? (fun d => d.id = drawing_id) with
  | some drawing => drawing
  | none =>
    { id := -1, strokes := [], canvas_width := junk_w, canvas_height := junk_h,
      associated_note_id := "" }

/-- The twelve `create_topic` calls of the constructor body, in source order. -/
def seed_topics : List (String × String × Int × String) :=
  [ ("Climate Change",
     "Should governments prioritize economic growth or environmental protection?",
     7, "Environmental"),
    ("Universal Healthcare",
     "Should healthcare be a guaranteed government service or market-based?",
     6, "Healthcare"),
    ("Artificial Intelligence Ethics",
     "Should AI development be regulated or left to market forces?",
     8, "Technology"),
    ("Gun Control",
     "Do gun control laws reduce crime or infringe on constitutional rights?",
     9, "Politics"),
    ("Immigration Policy",
     "Should immigration be increased, decreased, or reformed?",
     7, "Politics"),
    ("Social Media Impact",
     "Does social media do more harm than good for young people?",
     3, "Technology"),
    ("School Start Times",
     "Should high schools start later in the morning?",
     2, "Education"),
    ("College Tuition",
     "Should college tuition be free or paid by students?",
     5, "Education"),
    ("Minimum Wage",
     "Should the minimum wage be increased or eliminated?",
     4, "Economics"),
    ("Space Exploration",
     "Should governments fund space exploration or focus on Earth problems?",
     6, "Science"),
    ("Animal Testing",
     "Is animal testing justified for medical research?",
     5, "Ethics"),
    ("Death Penalty",
     "Should the death penalty be abolished or maintained?",
     8, "Social") ]

/-- The constructor `DebateCore::DebateCore()`: `next_id(1)` and then the
twelve `create_topic` calls. -/
def init : DebateCore :=
  seed_topics.foldl (fun s t => (create_topic s t.1 t.2.1 t.2.2.1 t.2.2.2).1) empty

/-! ## The public operations as a transition system -/

/-- One call of a public member function, with its arguments (and the clock
reading where the function reads the clock). -/
inductive Op where
  | create_topic (title description : String) (complexity : Int) (category : String)
  | get_topics_by_complexity (min_level max_level : Int)
  | search_topics (query : String)
  | create_note (content topic_tag type : String) (now : Time)
  | link_notes (note1_id note2_id : Int)
  | get_linked_notes (note_id : Int)
  | search_notes (query : String)
  | record_belief (topic_id conviction : Int) (position : String) (now : Time)
  | get_user_belief (topic_id : Int) (now : Time)
  | get_belief_history (topic_id : Int)
  | create_drawing (width height : Float32) (note_id : String)
  | add_stroke_to_drawing (drawing_id : Int) (points : List (Float32 × Float32))
      (width : Float32) (color : String) (now : Time)
  | get_drawing (drawing_id : Int)
deriving DecidableEq, Repr

/-- The state after one call.  The query functions write no member. -/
def step (s : DebateCore) : Op → DebateCore
  | .create_topic title description complexity category =>
    (create_topic s title description complexity category).1
  | .get_topics_by_complexity _ _ => s
  | .search_topics _ => s
  | .create_note content topic_tag type now => (create_note s content topic_tag type now).1
  | .link_notes note1_id note2_id => link_notes s note1_id note2_id
  | .get_linked_notes _ => s
  | .search_notes _ => s
  | .record_belief topic_id conviction position now =>
    record_belief s topic_id conviction position now
  | .get_user_belief _ _ => s
  | .get_belief_history _ => s
  | .create_drawing width height note_id => (create_drawing s width height note_id).1
  | .add_stroke_to_drawing drawing_id points width color now =>
    add_stroke_to_drawing s drawing_id points width color now
  | .get_drawing _ => s

/-- The id a creation call returns in state `s`; `none` for every other call. -/
def returned_id (s : DebateCore) : Op → Option Int
  | .create_topic title description complexity category =>
    some (create_topic s title description complexity category).2
  | .create_note content topic_tag type now => some (create_note s content topic_tag type now).2
  | .create_drawing width height note_id => some (create_drawing s width height note_id).2
  | _ => none

/-- The id a `create_drawing` call returns in state `s`; `none` for every other call. -/
def returned_drawing_id (s : DebateCore) : Op → Option Int
  | .create_drawing width height note_id => some (create_drawing s width height note_id).2
  | _ => none

/-- The id a `create_topic` or `create_note` call returns in state `s`; `none`
for every other call. -/
def returned_other_id (s : DebateCore) : Op → Option Int
  | .create_topic title description complexity category =>
    some (create_topic s title description complexity category).2
  | .create_note content topic_tag type now => some (create_note s content topic_tag type now).2
  | _ => none

/-- The state after a sequence of calls. -/
def run (s : DebateCore) : List Op → DebateCore
  | [] => s
  | op :: ops => run (step s op) ops

/-- The ids returned by the creation calls of a sequence, in call order. -/
def issued (s : DebateCore) : List Op → List Int
  | [] => []
  | op :: ops => (returned_id s op).toList ++ issued (step s op) ops

/-- The ids returned by the `create_drawing` calls of a sequence, in call order. -/
def issued_drawings (s : DebateCore) : List Op → List Int
  | [] => []
  | op :: ops => (returned_drawing_id s op).toList ++ issued_drawings (step s op) ops

/-- The ids returned by the `create_topic` and `create_note` calls of a
sequence, in call order. -/
def issued_others (s : DebateCore) : List Op → List Int
  | [] => []
  | op :: ops => (returned_other_id s op).toList ++ issued_others (step s op) ops

/-- The constructor body as calls: `init = run empty seed_ops`. -/
def seed_ops : List Op :=
  seed_topics.map (fun t => Op.create_topic t.1 t.2.1 t.2.2.1 t.2.2.2)

/-- The states a store can be in: the constructed store, and whatever a public
call leads to from a reachable state. -/
inductive Reachable : DebateCore → Prop
  | init : Reachable init
  | step (s : DebateCore) (op : Op) : Reachable s → Reachable (step s op)

/-- The arguments `(conviction, position, now)` of the `record_belief` calls
for topic `t` in a sequence of calls, in call order. -/
def belief_calls (t : Int) : List Op → List (Int × String × Time)
  | [] => []
  | .record_belief topic_id conviction position now :: ops =>
    if topic_id = t then (conviction, position, now) :: belief_calls t ops
    else belief_calls t ops
  | _ :: ops => belief_calls t ops

/-- The text a topic is searched by, as the specification words it: the
lowercased concatenation of title, description and category. -/
def topic_searchable (topic : Topic) : List Char :=
  (topic.title.data ++ [' '] ++ topic.description.data ++ [' '] ++ topic.category.data).map
    tolower

/-- An example session: the constructed store, then two notes (ids 13 and 14). -/
def two_notes : DebateCore :=
  run init [Op.create_note "first" "tag" "claim" 1, Op.create_note "second" "tag" "evidence" 2]

/-- An example session: a note is created (id 13) and linked to the id 14
before any note with id 14 exists; the next created note receives id 14. -/
def link_before_create : DebateCore :=
  run init [Op.create_note "first" "tag" "general" 1, Op.link_notes 13 14,
            Op.create_note "second" "tag" "general" 2]

/-- An example session: a note is created (id 13) and linked to the id 999,
which no note has. -/
def link_to_missing : DebateCore :=
  run init [Op.create_note "first" "tag" "general" 1, Op.link_notes 13 999]

/-- What holds of the notes of every reachable state: note ids are below the
counter and pairwise distinct, and no linked-id list holds an id twice. -/
structure NotesInv (s : DebateCore) : Prop where
  lt_next : ∀ n ∈ s.notes, n.id < s.next_id
  ids_nodup : (s.notes.map (fun n => n.id)).Nodup
  links_nodup : ∀ n ∈ s.notes, n.linked_notes.Nodup

/-- The text a note is searched by, as the specification words it: the
lowercased concatenation of content and topic tag. -/
def note_searchable (note : Note) : List Char :=
  (note.content.data ++ [' '] ++ note.topic_tag.data).map tolower

/-- What holds of the drawings of every reachable state: drawing ids are below
the counter and pairwise distinct. -/
structure DrawingsInv (s : DebateCore) : Prop where
  lt_next : ∀ i ∈ s.drawings.map (fun d => d.id), i < s.next_id
  ids_nodup : (s.drawings.map (fun d => d.id)).Nodup

/-- An example session: the constructed store, a topic (id 13), then two
drawings (ids 14 and 15). -/
def two_drawings : DebateCore :=
  run init [Op.create_topic "t" "d" 3 "c", Op.create_drawing ⟨800⟩ ⟨600⟩ "",
            Op.create_drawing ⟨640⟩ ⟨480⟩ "13"]

/-- The token sequence of a text as the specification words it: the text split
on whitespace, the non-empty pieces kept, each piece lowercased. -/
def spec_tokens (text : String) : List String :=
  ((text.data.splitOnP isspace).filter (fun piece => decide (piece ≠ []))).map
    (fun piece => ⟨piece.map tolower⟩)

/-- The number of times the token `w` occurs among the tokens of a topic's text
`title + " " + description + " " + category`. -/
def topic_token_count (w : String) (t : Topic) : Nat :=
  (tokens (topic_text t.title t.description t.category)).count w

/-- The number of times the token `w` occurs among the tokens of a note's text
`content + " " + topic_tag`. -/
def note_token_count (w : String) (n : Note) : Nat :=
  (tokens (note_text n.content n.topic_tag)).count w

/-- What holds of the two inverted indexes in every reachable state: the
number of entries `i` under the token `w` is the total number of occurrences of
`w` among the tokens of the stored topics (notes) with id `i`. -/
structure IndexInv (s : DebateCore) : Prop where
  topic : ∀ (w : String) (i : Int),
    (Index.get s.topic_index w).count i
      = ((s.topics.filter (fun t => t.id = i)).map (topic_token_count w)).sum
  note : ∀ (w : String) (i : Int),
    (Index.get s.note_index w).count i
      = ((s.notes.filter (fun n => n.id = i)).map (note_token_count w)).sum

/-- What holds of the topics of every reachable state: topic ids are below the
counter and pairwise distinct, and every complexity level lies in [1,10]. -/
structure TopicsInv (s : DebateCore) : Prop where
  lt_next : ∀ t ∈ s.topics, t.id < s.next_id
  ids_nodup : (s.topics.map (fun t => t.id)).Nodup
  levels : ∀ t ∈ s.topics, 1 ≤ t.complexity_level ∧ t.complexity_level ≤ 10

/-- Whether a call is a `create_topic` call. -/
def Op.is_create_topic : Op → Bool
  | .create_topic _ _ _ _ => true
  | _ => false

/-- Whether a call is a `record_belief` call. -/
def Op.is_record_belief : Op → Bool
  | .record_belief _ _ _ _ => true
  | _ => false

/-- An example session: on the constructed store, a belief with conviction 5
and position "neutral" is recorded for topic 1 at clock reading 100. -/
def neutral_recorded : DebateCore :=
  run init [Op.record_belief 1 5 "neutral" 100]

end DebateCore

/-! ## Basic facts -/

namespace DebateCore

theorem init_eq_run : init = run empty seed_ops := by
  rfl

theorem reachable_run {s : DebateCore} (h : Reachable s) (ops : List Op) :
    Reachable (run s ops) := by
  induction ops generalizing s with
  | nil => exact h
  | cons op ops ih => exact ih (Reachable.step s op h)

theorem run_append (s : DebateCore) (xs ys : List Op) :
    run s (xs ++ ys) = run (run s xs) ys := by
  induction xs generalizing s with
  | nil => rfl
  | cons op xs ih => exact ih (step s op)

/-! ## The id counter -/

theorem returned_id_some {s : DebateCore} {op : Op} {i : Int} (h : returned_id s op = some i) :
    i = s.next_id ∧ (step s op).next_id = s.next_id + 1 := by
  cases op <;> simp [returned_id, step, create_topic, create_note, create_drawing] at h ⊢ <;>
    exact h.symm

theorem returned_id_none {s : DebateCore} {op : Op} (h : returned_id s op = none) :
    (step s op).next_id = s.next_id := by
  cases op <;>
    simp [returned_id, step, link_notes, record_belief, add_stroke_to_drawing] at h ⊢

theorem next_id_le_step (s : DebateCore) (op : Op) : s.next_id ≤ (step s op).next_id := by
  cases h : returned_id s op with
  | none => exact le_of_eq (returned_id_none h).symm
  | some i => rw [(returned_id_some h).2]; omega

theorem issued_ge (s : DebateCore) (ops : List Op) : ∀ i ∈ issued s ops, s.next_id ≤ i := by
  induction ops generalizing s with
  | nil => simp [issued]
  | cons op ops ih =>
    intro i hi
    simp only [issued, List.mem_append] at hi
    rcases hi with hi | hi
    · have h : returned_id s op = some i := by
        cases h : returned_id s op with
        | none => simp [h] at hi
        | some j => simp [h] at hi; simp [hi]
      exact le_of_eq (returned_id_some h).1.symm
    · exact le_trans (next_id_le_step s op) (ih _ i hi)

theorem issued_pairwise (s : DebateCore) (ops : List Op) :
    (issued s ops).Pairwise (· < ·) := by
  induction ops generalizing s with
  | nil => simp [issued]
  | cons op ops ih =>
    simp only [issued]
    cases h : returned_id s op with
    | none => simpa using ih _
    | some i =>
      have hs := returned_id_some h
      simp only [Option.toList, List.singleton_append, List.pairwise_cons]
      refine ⟨fun j hj => ?_, ih _⟩
      have := issued_ge _ ops j hj
      omega

theorem issued_append (s : DebateCore) (xs ys : List Op) :
    issued s (xs ++ ys) = issued s xs ++ issued (run s xs) ys := by
  induction xs generalizing s with
  | nil => rfl
  | cons op xs ih => simp [issued, run, ih]

theorem issued_seed : issued empty seed_ops = [1, 2, 3, 4, 5, 6, 7, 8, 9, 10, 11, 12] := by
  rfl

/-- C4: the ids returned by `create_topic`, `create_note` and `create_drawing`
over any sequence of calls on a constructed store (the constructor's twelve
seed calls included, which return 1..12) are positive, strictly increasing in
call order and pairwise distinct; a creation call returns the counter and
advances it by one, and no other call changes the counter. -/
theorem C4_issued_ids_increasing (ops : List Op) :
    issued empty (seed_ops ++ ops)
        = [1, 2, 3, 4, 5, 6, 7, 8, 9, 10, 11, 12] ++ issued init ops ∧
    (∀ i ∈ issued empty (seed_ops ++ ops), 0 < i) ∧
    (issued empty (seed_ops ++ ops)).Pairwise (· < ·) ∧
    (issued empty (seed_ops ++ ops)).Nodup ∧
    (∀ (s : DebateCore) (op : Op) (i : Int), returned_id s op = some i →
        i = s.next_id ∧ (step s op).next_id = s.next_id + 1) ∧
    (∀ (s : DebateCore) (op : Op), returned_id s op = none →
        (step s op).next_id = s.next_id) := by
  have hpw := issued_pairwise empty (seed_ops ++ ops)
  refine ⟨?_, ?_, hpw, ?_, fun s op i h => returned_id_some h, fun s op h => returned_id_none h⟩
  · rw [issued_append, issued_seed, ← init_eq_run]
  · intro i hi
    have := issued_ge empty _ i hi
    have h1 : empty.next_id = 1 := rfl
    omega
  · exact hpw.imp (fun h => ne_of_lt h)

/-! ## Clamping -/

/-- C5: for every integer `x`, `create_topic` appends a topic whose complexity
level is `max 1 (min 10 x)` and `record_belief` appends a belief whose
conviction level is `max 1 (min 10 x)`; both calls always append (no input is
rejected), the stored level lies in [1,10], and an input already in [1,10] is
stored unchanged. -/
theorem C5_levels_clamped (s : DebateCore) (title description category position : String)
    (topic_id x : Int) (now : Time) :
    (create_topic s title description x category).1.topics
        = s.topics ++ [{ id := s.next_id, title := title, description := description,
                         complexity_level := max 1 (min 10 x), category := category,
                         tags := [] }] ∧
    (record_belief s topic_id x position now).beliefs
        = s.beliefs ++ [{ topic_id := topic_id, conviction_level := max 1 (min 10 x),
                          position := position, recorded_at := now }] ∧
    (∀ topic ∈ ((create_topic s title description x category).1.topics).getLast?,
        1 ≤ topic.complexity_level ∧ topic.complexity_level ≤ 10 ∧
        (1 ≤ x ∧ x ≤ 10 → topic.complexity_level = x)) ∧
    (∀ belief ∈ ((record_belief s topic_id x position now).beliefs).getLast?,
        1 ≤ belief.conviction_level ∧ belief.conviction_level ≤ 10 ∧
        (1 ≤ x ∧ x ≤ 10 → belief.conviction_level = x)) := by
  refine ⟨rfl, rfl, ?_, ?_⟩
  · intro topic h
    simp [create_topic, clamp] at h
    subst h
    simp only
    omega
  · intro belief h
    simp [record_belief, clamp] at h
    subst h
    simp only
    omega

/-! ## Beliefs -/

theorem reverse_find_eq_getLast_filter {α : Type} (p : α → Bool) (l : List α) :
    l.reverse.find? p = (l.filter p).getLast? := by
  rw [← List.head?_reverse, ← List.filter_reverse, List.filter_head?]

theorem get_user_belief_of_history_nil {s : DebateCore} {t : Int} (now : Time)
    (h : get_belief_history s t = []) :
    get_user_belief s t now
      = { topic_id := t, conviction_level := 5, position := "neutral", recorded_at := now } := by
  unfold get_user_belief
  rw [reverse_find_eq_getLast_filter]
  unfold get_belief_history at h
  rw [h]
  rfl

theorem get_user_belief_eq_getLast {s : DebateCore} {t : Int} (now : Time) {b : UserBelief}
    (h : (get_belief_history s t).getLast? = some b) :
    get_user_belief s t now = b := by
  unfold get_user_belief
  rw [reverse_find_eq_getLast_filter]
  unfold get_belief_history at h
  rw [h]

/-- C7: when no belief is recorded for topic `t`, `get_user_belief` returns the
default belief (topic `t`, conviction 5, position "neutral", stamped with the
current clock reading), and the query stores nothing: the state after the call
is the state before it, so the history of `t` is still empty. -/
theorem C7_default_belief_not_stored (s : DebateCore) (t : Int) (now : Time)
    (h : ∀ b ∈ s.beliefs, b.topic_id ≠ t) :
    get_user_belief s t now
        = { topic_id := t, conviction_level := 5, position := "neutral", recorded_at := now } ∧
    step s (Op.get_user_belief t now) = s ∧
    (step s (Op.get_user_belief t now)).beliefs = s.beliefs ∧
    get_belief_history (step s (Op.get_user_belief t now)) t = [] := by
  have h0 : get_belief_history s t = [] := by
    unfold get_belief_history
    rw [List.filter_eq_nil_iff]
    intro b hb
    simpa using h b hb
  exact ⟨get_user_belief_of_history_nil now h0, rfl, rfl, h0⟩

/-- Witness for C7 on the constructed store, which holds no belief at all. -/
theorem C7_default_belief_not_stored_witness :
    get_user_belief init 1 42
        = { topic_id := 1, conviction_level := 5, position := "neutral", recorded_at := 42 } ∧
    step init (Op.get_user_belief 1 42) = init ∧
    (step init (Op.get_user_belief 1 42)).beliefs = init.beliefs ∧
    get_belief_history (step init (Op.get_user_belief 1 42)) 1 = [] :=
  C7_default_belief_not_stored init 1 42 (by intro b hb; cases hb)

theorem get_belief_history_step (s : DebateCore) (t : Int) (op : Op) :
    get_belief_history (step s op) t
      = get_belief_history s t ++
          (belief_calls t [op]).map (fun a =>
            ({ topic_id := t, conviction_level := max 1 (min 10 a.1), position := a.2.1,
               recorded_at := a.2.2 } : UserBelief)) := by
  cases op <;>
    simp [step, get_belief_history, belief_calls, create_topic, create_note, create_drawing,
      link_notes, add_stroke_to_drawing, record_belief, List.filter_cons, clamp]
  split <;> simp_all

theorem belief_calls_cons (t : Int) (op : Op) (ops : List Op) :
    belief_calls t (op :: ops) = belief_calls t [op] ++ belief_calls t ops := by
  cases op <;> simp [belief_calls]
  split <;> simp

theorem get_belief_history_run (s : DebateCore) (t : Int) (ops : List Op) :
    get_belief_history (run s ops) t
      = get_belief_history s t ++
          (belief_calls t ops).map (fun a =>
            ({ topic_id := t, conviction_level := max 1 (min 10 a.1), position := a.2.1,
               recorded_at := a.2.2 } : UserBelief)) := by
  induction ops generalizing s with
  | nil => simp [run, belief_calls]
  | cons op ops ih =>
    rw [run, ih, get_belief_history_step, belief_calls_cons t op ops]
    simp

/-- C3: from a state with no belief recorded for topic `t`, after any sequence
of calls that contains N ≥ 1 calls `record_belief(t, c_i, p_i)` (interleaved
with arbitrary other calls), `get_belief_history(t)` is, in call order, the N
records with topic `t`, conviction `max 1 (min 10 c_i)`, position `p_i` (and
the clock reading of the call), so it has length N, and `get_user_belief(t)`
returns the last (N-th) of them. -/
theorem C3_history_after_records (s : DebateCore) (t : Int) (ops : List Op) (now : Time)
    (h0 : get_belief_history s t = [])
    (hN : 1 ≤ (belief_calls t ops).length) :
    get_belief_history (run s ops) t
        = (belief_calls t ops).map (fun a =>
            ({ topic_id := t, conviction_level := max 1 (min 10 a.1), position := a.2.1,
               recorded_at := a.2.2 } : UserBelief)) ∧
    (get_belief_history (run s ops) t).length = (belief_calls t ops).length ∧
    some (get_user_belief (run s ops) t now)
        = ((belief_calls t ops).map (fun a =>
            ({ topic_id := t, conviction_level := max 1 (min 10 a.1), position := a.2.1,
               recorded_at := a.2.2 } : UserBelief))).getLast? := by
  have hrun := get_belief_history_run s t ops
  rw [h0, List.nil_append] at hrun
  refine ⟨hrun, by rw [hrun, List.length_map], ?_⟩
  have hne : get_belief_history (run s ops) t ≠ [] := by
    intro hnil
    have := congrArg List.length hnil
    rw [hrun, List.length_map, List.length_nil] at this
    omega
  obtain ⟨b, hb⟩ : ∃ b, (get_belief_history (run s ops) t).getLast? = some b := by
    cases hl : (get_belief_history (run s ops) t).getLast? with
    | none => exact absurd (List.getLast?_eq_none_iff.mp hl) hne
    | some b => exact ⟨b, rfl⟩
  rw [get_user_belief_eq_getLast now hb, ← hrun, hb]

/-- Witness for C3: on the constructed store, two beliefs for topic 3 recorded
around a note creation and a belief for topic 4. -/
theorem C3_history_after_records_witness :
    get_belief_history
        (run init [Op.record_belief 3 14 "for" 100, Op.create_note "n" "tag" "claim" 101,
                   Op.record_belief 4 2 "against" 102, Op.record_belief 3 (-7) "neutral" 103]) 3
      = [{ topic_id := 3, conviction_level := 10, position := "for", recorded_at := 100 },
         { topic_id := 3, conviction_level := 1, position := "neutral", recorded_at := 103 }] ∧
    get_user_belief
        (run init [Op.record_belief 3 14 "for" 100, Op.create_note "n" "tag" "claim" 101,
                   Op.record_belief 4 2 "against" 102, Op.record_belief 3 (-7) "neutral" 103]) 3 7
      = { topic_id := 3, conviction_level := 1, position := "neutral", recorded_at := 103 } := by
  have h := C3_history_after_records init 3
    [Op.record_belief 3 14 "for" 100, Op.create_note "n" "tag" "claim" 101,
     Op.record_belief 4 2 "against" 102, Op.record_belief 3 (-7) "neutral" 103] 7
    (by rfl) (by decide)
  refine ⟨h.1.trans (by decide), ?_⟩
  have h2 := h.2.2
  simp [belief_calls] at h2
  simpa using h2

/-! ## The seed data -/

set_option maxRecDepth 1000000 in
/-- C9: on the constructed store, `search_topics("Climate")` returns exactly
the topic "Climate Change", and `search_topics("politics")` returns exactly
"Gun Control" and "Immigration Policy" (category "Politics"), in that order. -/
theorem C9_seed_search :
    search_topics init "Climate"
      = [{ id := 1, title := "Climate Change",
           description :=
             "Should governments prioritize economic growth or environmental protection?",
           complexity_level := 7, category := "Environmental", tags := [] }] ∧
    search_topics init "politics"
      = [{ id := 4, title := "Gun Control",
           description :=
             "Do gun control laws reduce crime or infringe on constitutional rights?",
           complexity_level := 9, category := "Politics", tags := [] },
         { id := 5, title := "Immigration Policy",
           description := "Should immigration be increased, decreased, or reformed?",
           complexity_level := 7, category := "Politics", tags := [] }] := by
  decide

set_option maxRecDepth 1000000 in
/-- C10: the constructed store holds exactly 12 topics, and
`get_topics_by_complexity(8, 10)` returns exactly "Artificial Intelligence
Ethics" (level 8), "Gun Control" (level 9) and "Death Penalty" (level 8), in
that order. -/
theorem C10_seed_complexity :
    init.topics.length = 12 ∧
    get_topics_by_complexity init 8 10
      = [{ id := 3, title := "Artificial Intelligence Ethics",
           description := "Should AI development be regulated or left to market forces?",
           complexity_level := 8, category := "Technology", tags := [] },
         { id := 4, title := "Gun Control",
           description :=
             "Do gun control laws reduce crime or infringe on constitutional rights?",
           complexity_level := 9, category := "Politics", tags := [] },
         { id := 12, title := "Death Penalty",
           description := "Should the death penalty be abolished or maintained?",
           complexity_level := 8, category := "Social", tags := [] }] := by
  decide

/-! ## Drawings -/

theorem add_stroke_loop_ids (drawing_id : Int) (stroke : DrawingStroke) (ds : List Drawing) :
    (add_stroke_loop drawing_id stroke ds).map (fun d => d.id) = ds.map (fun d => d.id) := by
  induction ds with
  | nil => rfl
  | cons d ds ih =>
    unfold add_stroke_loop
    split
    · simp
    · simp [ih]

theorem drawing_ids_step (s : DebateCore) (op : Op) :
    (step s op).drawings.map (fun d => d.id)
      = s.drawings.map (fun d => d.id) ++ (returned_drawing_id s op).toList := by
  cases op <;>
    simp [step, returned_drawing_id, create_topic, create_note, create_drawing, link_notes,
      record_belief, add_stroke_to_drawing, add_stroke_loop_ids]

theorem drawing_ids_run (s : DebateCore) (ops : List Op) :
    (run s ops).drawings.map (fun d => d.id)
      = s.drawings.map (fun d => d.id) ++ issued_drawings s ops := by
  induction ops generalizing s with
  | nil => simp [run, issued_drawings]
  | cons op ops ih => rw [run, ih, drawing_ids_step, issued_drawings, List.append_assoc]

theorem issued_drawings_ge (s : DebateCore) (ops : List Op) :
    ∀ i ∈ issued_drawings s ops, s.next_id ≤ i := by
  induction ops generalizing s with
  | nil => simp [issued_drawings]
  | cons op ops ih =>
    intro i hi
    simp only [issued_drawings, List.mem_append] at hi
    rcases hi with hi | hi
    · cases op <;> simp [returned_drawing_id, create_drawing] at hi
      omega
    · exact le_trans (next_id_le_step s op) (ih _ i hi)

theorem get_drawing_of_not_mem (s : DebateCore) (id : Int) (junk_w junk_h : Float32)
    (h : id ∉ s.drawings.map (fun d => d.id)) :
    get_drawing s id junk_w junk_h
      = { id := -1, strokes := [], canvas_width := junk_w, canvas_height := junk_h,
          associated_note_id := "" } := by
  have hnone : s.drawings.find? (fun d => d.id = id) = none := by
    rw [List.find?_eq_none]
    intro d hd
    simp only [decide_eq_true_eq]
    intro hid
    exact h (List.mem_map.mpr ⟨d, hd, hid⟩)
  simp [get_drawing, hnone]

theorem get_drawing_of_mem (s : DebateCore) (id : Int) (junk_w junk_h : Float32)
    (h : id ∈ s.drawings.map (fun d => d.id)) :
    (get_drawing s id junk_w junk_h).id = id ∧ get_drawing s id junk_w junk_h ∈ s.drawings := by
  obtain ⟨d, hd, hid⟩ := List.mem_map.mp h
  cases hf : s.drawings.find? (fun d => d.id = id) with
  | none =>
    rw [List.find?_eq_none] at hf
    exact absurd (by simpa using hid) (hf d hd)
  | some e =>
    have h1 := List.find?_some hf
    have h2 := List.mem_of_find?_eq_some hf
    simp only [decide_eq_true_eq] at h1
    simp [get_drawing, hf, h1, h2]

theorem next_id_lt_step_of_drawing {s : DebateCore} {op : Op} {i : Int}
    (h : i ∈ (returned_drawing_id s op).toList) : i = s.next_id ∧ i < (step s op).next_id := by
  cases op <;> simp [returned_drawing_id, create_drawing, step] at h ⊢
  omega

theorem next_id_lt_step_of_other {s : DebateCore} {op : Op} {i : Int}
    (h : i ∈ (returned_other_id s op).toList) : i = s.next_id ∧ i < (step s op).next_id := by
  cases op <;> simp [returned_other_id, create_topic, create_note, step] at h ⊢ <;> omega

theorem issued_others_ge (s : DebateCore) (ops : List Op) :
    ∀ i ∈ issued_others s ops, s.next_id ≤ i := by
  induction ops generalizing s with
  | nil => simp [issued_others]
  | cons op ops ih =>
    intro i hi
    simp only [issued_others, List.mem_append] at hi
    rcases hi with hi | hi
    · exact le_of_eq (next_id_lt_step_of_other hi).1.symm
    · exact le_trans (next_id_le_step s op) (ih _ i hi)

theorem issued_others_not_drawing (s : DebateCore) (ops : List Op) :
    ∀ i ∈ issued_others s ops, i ∉ issued_drawings s ops := by
  induction ops generalizing s with
  | nil => simp [issued_others]
  | cons op ops ih =>
    intro i hi hd
    simp only [issued_others, issued_drawings, List.mem_append] at hi hd
    rcases hi with hi | hi <;> rcases hd with hd | hd
    · cases op <;> simp [returned_other_id, returned_drawing_id] at hi hd
    · have h1 := next_id_lt_step_of_other hi
      have h2 := issued_drawings_ge _ ops i hd
      omega
    · have h1 := next_id_lt_step_of_drawing hd
      have h2 := issued_others_ge _ ops i hi
      omega
    · exact ih _ i hi hd

/-- C6: after any sequence of calls on the constructed store, `get_drawing(id)`
for an id that no `create_drawing` call of the sequence returned is the
sentinel: id -1, no strokes, empty note reference (the two canvas floats are
whatever the uninitialised local held); this covers every id returned by a
`create_topic` or `create_note` call of the sequence and every id up to 12
(-1, 0 and the seed topics).  For an id that a `create_drawing` call returned
the result is a stored drawing whose id is that id, which is never -1. -/
theorem C6_get_drawing_sentinel (ops : List Op) (id : Int) (junk_w junk_h : Float32) :
    (id ∉ issued_drawings init ops →
        get_drawing (run init ops) id junk_w junk_h
          = { id := -1, strokes := [], canvas_width := junk_w, canvas_height := junk_h,
              associated_note_id := "" }) ∧
    (id ∈ issued_others init ops → id ∉ issued_drawings init ops) ∧
    (id ≤ 12 → id ∉ issued_drawings init ops) ∧
    (id ∈ issued_drawings init ops →
        (get_drawing (run init ops) id junk_w junk_h).id = id ∧
        get_drawing (run init ops) id junk_w junk_h ∈ (run init ops).drawings ∧
        (get_drawing (run init ops) id junk_w junk_h).id ≠ -1) := by
  have hids := drawing_ids_run init ops
  have hinit : init.drawings.map (fun d => d.id) = [] := rfl
  have h13 : init.next_id = 13 := rfl
  rw [hinit, List.nil_append] at hids
  refine ⟨?_, issued_others_not_drawing init ops id, ?_, ?_⟩
  · intro h
    exact get_drawing_of_not_mem _ id junk_w junk_h (by rw [hids]; exact h)
  · intro hle hmem
    have hge := issued_drawings_ge init ops id hmem
    omega
  · intro h
    have hm := get_drawing_of_mem (run init ops) id junk_w junk_h (by rw [hids]; exact h)
    refine ⟨hm.1, hm.2, ?_⟩
    have hge := issued_drawings_ge init ops id h
    rw [hm.1]
    omega

/-! ## Substring search -/

theorem toNat_ofNat_small (n : Nat) (h : n < 55296) : (Char.ofNat n).toNat = n := by
  have hv : n.isValidChar := Or.inl h
  unfold Char.ofNat
  rw [dif_pos hv]
  rfl

theorem tolower_tolower (c : Char) : tolower (tolower c) = tolower c := by
  unfold tolower
  split
  · rename_i h
    have hv : (Char.ofNat (c.toNat + 32)).toNat = c.toNat + 32 :=
      toNat_ofNat_small _ (by omega)
    have : ¬ (65 ≤ (Char.ofNat (c.toNat + 32)).toNat ∧
        (Char.ofNat (c.toNat + 32)).toNat ≤ 90) := by omega
    simp [this]
  · rename_i h
    simp [h]

theorem to_lower_to_lower (q : String) : to_lower (to_lower q) = to_lower q := by
  have h : tolower ∘ tolower = tolower := funext tolower_tolower
  simp [to_lower, h]

theorem findChars_isSome_iff (hay needle : List Char) :
    (findChars hay needle).isSome = true ↔ needle <:+: hay := by
  induction hay with
  | nil =>
    unfold findChars
    by_cases h : needle = [] <;> simp [h]
  | cons c cs ih =>
    unfold findChars
    rw [List.infix_cons_iff]
    by_cases hp : needle.isPrefixOf (c :: cs) = true
    · simp only [hp, if_true, Option.isSome_some, true_iff]
      exact Or.inl (List.isPrefixOf_iff_prefix.mp hp)
    · have hnp : ¬ needle <+: c :: cs := fun h => hp (List.isPrefixOf_iff_prefix.mpr h)
      simp only [hp, Bool.false_eq_true, if_false, hnp, false_or]
      rw [← ih]
      cases findChars cs needle <;> simp

theorem topic_searchable_eq (topic : Topic) :
    (to_lower (topic_text topic.title topic.description topic.category)).data
      = topic_searchable topic := by
  simp [to_lower, topic_text, topic_searchable]

theorem search_topics_eq_filter (s : DebateCore) (q : String) :
    search_topics s q
      = s.topics.filter (fun topic =>
          decide (q.data.map tolower <:+: topic_searchable topic)) := by
  unfold search_topics
  apply List.filter_congr
  intro topic _
  have h := findChars_isSome_iff
    (to_lower (topic_text topic.title topic.description topic.category)).data
    (to_lower q).data
  rw [topic_searchable_eq] at h
  simp only [find]
  rw [Bool.eq_iff_iff, topic_searchable_eq, h]
  simp [to_lower]

/-- C8: `search_topics(q)` is exactly the topic collection filtered, in
collection order, by "lowercase(q) is a contiguous substring of
lowercase(title + " " + description + " " + category)"; hence it is a sublist
of the collection (each stored topic is returned at most once), two queries
with the same lowercase form give the same result, and the result does not
depend on the two inverted indexes. -/
theorem C8_search_topics_substring (s : DebateCore) (q : String) :
    search_topics s q
        = s.topics.filter (fun topic =>
            decide (q.data.map tolower <:+: topic_searchable topic)) ∧
    (search_topics s q).Sublist s.topics ∧
    (∀ q2 : String, q2.data.map tolower = q.data.map tolower →
        search_topics s q2 = search_topics s q) ∧
    search_topics s (to_lower q) = search_topics s q ∧
    (∀ ti ni : Index,
        search_topics { s with topic_index := ti, note_index := ni } q = search_topics s q) := by
  refine ⟨search_topics_eq_filter s q, ?_, ?_, ?_, fun ti ni => rfl⟩
  · rw [search_topics_eq_filter]
    exact List.filter_sublist _
  · intro q2 h
    rw [search_topics_eq_filter, search_topics_eq_filter, h]
  · rw [search_topics_eq_filter, search_topics_eq_filter]
    have hidem : (to_lower q).data.map tolower = q.data.map tolower :=
      congrArg String.data (to_lower_to_lower q)
    rw [hidem]

/-! ## Note linking -/

theorem push_link_id (n : Note) (x : Int) : (push_link n x).id = n.id := by
  unfold push_link
  split <;> rfl

theorem push_link_mem (n : Note) (x : Int) : x ∈ (push_link n x).linked_notes := by
  unfold push_link
  split
  · assumption
  · simp

theorem push_link_subset (n : Note) (x y : Int) (h : y ∈ n.linked_notes) :
    y ∈ (push_link n x).linked_notes := by
  unfold push_link
  split
  · exact h
  · simp [h]

theorem push_link_nodup (n : Note) (x : Int) (h : n.linked_notes.Nodup) :
    (push_link n x).linked_notes.Nodup := by
  unfold push_link
  split
  · exact h
  · rename_i hx
    simp only
    rw [List.nodup_append]
    refine ⟨h, List.nodup_singleton x, ?_⟩
    intro y hy hy2
    rw [List.mem_singleton] at hy2
    exact hx (hy2 ▸ hy)

theorem link_step_eq (a b : Int) (n : Note) :
    link_step a b n
      = if n.id = a then (if n.id = b then push_link (push_link n b) a else push_link n b)
        else (if n.id = b then push_link n a else n) := by
  by_cases h1 : n.id = a <;> by_cases h2 : n.id = b
  · simp only [link_step, if_pos h1, if_pos h2, push_link_id]
  · simp only [link_step, if_pos h1, if_neg h2, push_link_id]
  · simp only [link_step, if_neg h1, if_pos h2]
  · simp only [link_step, if_neg h1, if_neg h2]

theorem link_step_id (a b : Int) (n : Note) : (link_step a b n).id = n.id := by
  rw [link_step_eq]
  split <;> split <;> simp only [push_link_id]

theorem link_step_mem_left (a b : Int) (n : Note) (h : n.id = a) :
    b ∈ (link_step a b n).linked_notes := by
  rw [link_step_eq, if_pos h]
  split
  · exact push_link_subset _ _ _ (push_link_mem n b)
  · exact push_link_mem n b

theorem link_step_mem_right (a b : Int) (n : Note) (h : n.id = b) :
    a ∈ (link_step a b n).linked_notes := by
  rw [link_step_eq, if_pos h]
  split
  · exact push_link_mem _ a
  · exact push_link_mem n a

theorem link_step_nodup (a b : Int) (n : Note) (h : n.linked_notes.Nodup) :
    (link_step a b n).linked_notes.Nodup := by
  rw [link_step_eq]
  split <;> split
  · exact push_link_nodup _ _ (push_link_nodup _ _ h)
  · exact push_link_nodup _ _ h
  · exact push_link_nodup _ _ h
  · exact h

theorem link_notes_ids (s : DebateCore) (a b : Int) :
    (link_notes s a b).notes.map (fun n => n.id) = s.notes.map (fun n => n.id) := by
  simp [link_notes, List.map_map, Function.comp, link_step_id]

theorem notesInv_init : NotesInv init :=
  ⟨fun _ hn => (nomatch hn), List.nodup_nil, fun _ hn => (nomatch hn)⟩

theorem notesInv_step {s : DebateCore} (h : NotesInv s) (op : Op) : NotesInv (step s op) := by
  cases op
  case create_note content topic_tag type now =>
    refine ⟨?_, ?_, ?_⟩
    · intro n hn
      simp only [step, create_note, List.mem_append, List.mem_singleton] at hn ⊢
      rcases hn with hn | hn
      · have := h.lt_next n hn
        omega
      · subst hn
        simp
    · simp only [step, create_note, List.map_append, List.map_cons, List.map_nil]
      rw [List.nodup_append]
      refine ⟨h.ids_nodup, List.nodup_singleton _, ?_⟩
      intro i hi hi2
      rw [List.mem_singleton] at hi2
      obtain ⟨n, hn, hid⟩ := List.mem_map.mp hi
      have := h.lt_next n hn
      omega
    · intro n hn
      simp only [step, create_note, List.mem_append, List.mem_singleton] at hn
      rcases hn with hn | hn
      · exact h.links_nodup n hn
      · subst hn
        exact List.nodup_nil
  case link_notes a b =>
    refine ⟨?_, ?_, ?_⟩
    · intro n hn
      simp only [step, link_notes, List.mem_map] at hn ⊢
      obtain ⟨m, hm, rfl⟩ := hn
      rw [link_step_id]
      exact h.lt_next m hm
    · simp only [step]
      rw [link_notes_ids]
      exact h.ids_nodup
    · intro n hn
      simp only [step, link_notes, List.mem_map] at hn
      obtain ⟨m, hm, rfl⟩ := hn
      exact link_step_nodup a b m (h.links_nodup m hm)
  case create_topic title description complexity category =>
    refine ⟨?_, h.ids_nodup, h.links_nodup⟩
    intro n hn
    have := h.lt_next n hn
    simp only [step, create_topic]
    omega
  case create_drawing width height note_id =>
    refine ⟨?_, h.ids_nodup, h.links_nodup⟩
    intro n hn
    have := h.lt_next n hn
    simp only [step, create_drawing]
    omega
  all_goals exact ⟨h.lt_next, h.ids_nodup, h.links_nodup⟩

theorem notesInv_of_reachable {s : DebateCore} (h : Reachable s) : NotesInv s := by
  induction h with
  | init => exact notesInv_init
  | step s op _ ih => exact notesInv_step ih op

theorem notesInv_link_notes {s : DebateCore} (h : NotesInv s) (a b : Int) :
    NotesInv (link_notes s a b) :=
  notesInv_step h (Op.link_notes a b)

theorem find_note_some {notes : List Note} {id : Int} {n : Note}
    (h : find_note notes id = some n) : n.id = id ∧ n ∈ notes := by
  unfold find_note at h
  have h1 := List.find?_some h
  simp only [decide_eq_true_eq] at h1
  exact ⟨h1, List.mem_of_find?_eq_some h⟩

theorem find_note_of_mem_ids {notes : List Note} {id : Int}
    (h : id ∈ notes.map (fun n => n.id)) : ∃ n, find_note notes id = some n := by
  obtain ⟨m, hm, hid⟩ := List.mem_map.mp h
  cases hf : find_note notes id with
  | some n => exact ⟨n, rfl⟩
  | none =>
    unfold find_note at hf
    rw [List.find?_eq_none] at hf
    exact absurd (by simpa using hid) (hf m hm)

theorem find_note_of_mem_nodup {notes : List Note} (hnd : (notes.map (fun n => n.id)).Nodup)
    {n : Note} (hn : n ∈ notes) : find_note notes n.id = some n := by
  induction notes with
  | nil => cases hn
  | cons m ms ih =>
    rw [List.map_cons, List.nodup_cons] at hnd
    rcases List.mem_cons.mp hn with hn | hn
    · subst hn
      simp [find_note]
    · have hne : ¬ m.id = n.id := by
        intro e
        exact hnd.1 (List.mem_map.mpr ⟨n, hn, e.symm⟩)
      have := ih hnd.2 hn
      unfold find_note at this ⊢
      rw [List.find?_cons]
      simp [hne, this]

theorem countP_resolved (notes : List Note) (b : Int) (l : List Int)
    (hb : ∃ n, find_note notes b = some n) :
    (l.filterMap (fun linked_id => find_note notes linked_id)).countP (fun n => n.id = b)
      = l.count b := by
  induction l with
  | nil => rfl
  | cons x l ih =>
    by_cases hx : x = b
    · subst hx
      obtain ⟨n, hn⟩ := hb
      have hid := (find_note_some hn).1
      rw [List.filterMap_cons_some hn, List.countP_cons_of_pos _ _ (by simpa using hid),
        List.count_cons_self, ih]
    · have hxb : (x == b) = false := by simpa using hx
      rw [List.count_cons, hxb]
      cases hf : find_note notes x with
      | none => rw [List.filterMap_cons_none hf, ih]; simp
      | some m =>
        have hid := (find_note_some hf).1
        have hmb : ¬ m.id = b := fun e => hx (hid.symm.trans e)
        rw [List.filterMap_cons_some hf, List.countP_cons_of_neg _ _ (by simpa using hmb), ih]
        simp

theorem mem_get_linked_notes {s : DebateCore} {a b : Int} {na nb : Note}
    (ha : find_note s.notes a = some na) (hb : find_note s.notes b = some nb)
    (hl : b ∈ na.linked_notes) : nb ∈ get_linked_notes s a := by
  unfold get_linked_notes
  rw [ha]
  exact List.mem_filterMap.mpr ⟨b, hl, hb⟩

theorem count_of_linked {s : DebateCore} (hs : NotesInv s) {a b : Int}
    (ha : a ∈ s.notes.map (fun n => n.id)) (hb : b ∈ s.notes.map (fun n => n.id))
    (hl : ∀ n ∈ s.notes, n.id = a → b ∈ n.linked_notes) :
    (∀ n ∈ s.notes, n.id = a → n.linked_notes.count b = 1) ∧
    (get_linked_notes s a).countP (fun n => n.id = b) = 1 := by
  have hcount : ∀ n ∈ s.notes, n.id = a → n.linked_notes.count b = 1 := fun n hn hid =>
    List.count_eq_one_of_mem (hs.links_nodup n hn) (hl n hn hid)
  refine ⟨hcount, ?_⟩
  obtain ⟨na, hna⟩ := find_note_of_mem_ids ha
  have hna2 := find_note_some hna
  unfold get_linked_notes
  rw [hna]
  simp only
  rw [countP_resolved s.notes b na.linked_notes (find_note_of_mem_ids hb)]
  exact hcount na hna2.2 hna2.1

theorem link_notes_linked_left (s : DebateCore) (a b : Int) :
    ∀ n ∈ (link_notes s a b).notes, n.id = a → b ∈ n.linked_notes := by
  intro n hn hid
  simp only [link_notes, List.mem_map] at hn
  obtain ⟨m, _, rfl⟩ := hn
  rw [link_step_id] at hid
  exact link_step_mem_left a b m hid

theorem link_notes_linked_right (s : DebateCore) (a b : Int) :
    ∀ n ∈ (link_notes s a b).notes, n.id = b → a ∈ n.linked_notes := by
  intro n hn hid
  simp only [link_notes, List.mem_map] at hn
  obtain ⟨m, _, rfl⟩ := hn
  rw [link_step_id] at hid
  exact link_step_mem_right a b m hid

theorem linked_after_link {s : DebateCore} (hs : NotesInv s) {a b : Int}
    (ha : a ∈ s.notes.map (fun n => n.id)) (hb : b ∈ s.notes.map (fun n => n.id))
    (hl : ∀ n ∈ s.notes, n.id = a → b ∈ n.linked_notes) :
    (∃ nb, find_note s.notes b = some nb ∧ nb ∈ get_linked_notes s a) ∧
    (∀ n ∈ s.notes, n.id = b → n ∈ get_linked_notes s a) := by
  obtain ⟨na, hna⟩ := find_note_of_mem_ids ha
  obtain ⟨nb, hnb⟩ := find_note_of_mem_ids hb
  have hna2 := find_note_some hna
  have hmem := mem_get_linked_notes hna hnb (hl na hna2.2 hna2.1)
  refine ⟨⟨nb, hnb, hmem⟩, ?_⟩
  intro n hn hid
  have hfn := find_note_of_mem_nodup hs.ids_nodup hn
  rw [hid, hnb] at hfn
  exact (Option.some.inj hfn) ▸ hmem

/-- C1: in a reachable state, for ids `a`, `b` of existing notes (`a = b`
allowed), after `link_notes(a, b)` the result of `get_linked_notes(a)` contains
the note with id `b` and the result of `get_linked_notes(b)` contains the note
with id `a`; after a second `link_notes(a, b)`, `b` occurs exactly once in the
linked ids of note `a` and `a` exactly once in those of note `b`, and likewise
exactly one note with id `b` (resp. `a`) is in `get_linked_notes(a)` (resp.
`get_linked_notes(b)`). -/
theorem C1_link_notes_both_directions (s : DebateCore) (hs : Reachable s) (a b : Int)
    (ha : a ∈ s.notes.map (fun n => n.id)) (hb : b ∈ s.notes.map (fun n => n.id)) :
    ((∃ nb, find_note (link_notes s a b).notes b = some nb ∧
          nb ∈ get_linked_notes (link_notes s a b) a) ∧
      (∀ n ∈ (link_notes s a b).notes, n.id = b → n ∈ get_linked_notes (link_notes s a b) a)) ∧
    ((∃ na, find_note (link_notes s a b).notes a = some na ∧
          na ∈ get_linked_notes (link_notes s a b) b) ∧
      (∀ n ∈ (link_notes s a b).notes, n.id = a → n ∈ get_linked_notes (link_notes s a b) b)) ∧
    ((∀ n ∈ (link_notes (link_notes s a b) a b).notes, n.id = a → n.linked_notes.count b = 1) ∧
      (get_linked_notes (link_notes (link_notes s a b) a b) a).countP (fun n => n.id = b) = 1) ∧
    ((∀ n ∈ (link_notes (link_notes s a b) a b).notes, n.id = b → n.linked_notes.count a = 1) ∧
      (get_linked_notes (link_notes (link_notes s a b) a b) b).countP (fun n => n.id = a) = 1) := by
  have inv1 := notesInv_link_notes (notesInv_of_reachable hs) a b
  have inv2 := notesInv_link_notes inv1 a b
  have ha1 : a ∈ (link_notes s a b).notes.map (fun n => n.id) := by rw [link_notes_ids]; exact ha
  have hb1 : b ∈ (link_notes s a b).notes.map (fun n => n.id) := by rw [link_notes_ids]; exact hb
  have ha2 : a ∈ (link_notes (link_notes s a b) a b).notes.map (fun n => n.id) := by
    rw [link_notes_ids]; exact ha1
  have hb2 : b ∈ (link_notes (link_notes s a b) a b).notes.map (fun n => n.id) := by
    rw [link_notes_ids]; exact hb1
  exact ⟨linked_after_link inv1 ha1 hb1 (link_notes_linked_left s a b),
    linked_after_link inv1 hb1 ha1 (link_notes_linked_right s a b),
    count_of_linked inv2 ha2 hb2 (link_notes_linked_left _ a b),
    count_of_linked inv2 hb2 ha2 (link_notes_linked_right _ a b)⟩

/-- Witness for C1: the two notes 13 and 14 of `two_notes`; after linking twice
each is linked to the other exactly once. -/
theorem C1_link_notes_both_directions_witness :
    Reachable two_notes ∧
    (13 : Int) ∈ two_notes.notes.map (fun n => n.id) ∧
    (14 : Int) ∈ two_notes.notes.map (fun n => n.id) ∧
    (∀ n ∈ (link_notes two_notes 13 14).notes, n.id = 14 →
        n ∈ get_linked_notes (link_notes two_notes 13 14) 13) ∧
    (∀ n ∈ (link_notes two_notes 13 14).notes, n.id = 13 →
        n ∈ get_linked_notes (link_notes two_notes 13 14) 14) ∧
    (get_linked_notes (link_notes (link_notes two_notes 13 14) 13 14) 13).countP
        (fun n => n.id = 14) = 1 ∧
    (get_linked_notes (link_notes (link_notes two_notes 13 14) 13 14) 14).countP
        (fun n => n.id = 13) = 1 :=
  have hr : Reachable two_notes := reachable_run Reachable.init _
  have h13 : (13 : Int) ∈ two_notes.notes.map (fun n => n.id) := by decide
  have h14 : (14 : Int) ∈ two_notes.notes.map (fun n => n.id) := by decide
  have h := C1_link_notes_both_directions two_notes hr 13 14 h13 h14
  ⟨hr, h13, h14, h.1.2, h.2.1.2, h.2.2.1.2, h.2.2.2.2⟩

set_option maxRecDepth 100000 in
/-- C2 (the code at the failing inputs): `link_notes` with an id that no note
has still records the link on the existing side.  After create_note (13),
link_notes(13, 14), create_note (14), note 13 lists 14 while note 14 lists
nothing; after create_note (13), link_notes(13, 999), note 13 lists 999, which
no note has, and `get_linked_notes(13)` skips it.  So the linking graph of a
reachable state need not be symmetric. -/
theorem C2_link_symmetry_broken :
    (Reachable link_before_create ∧
      link_before_create.notes.map (fun n => (n.id, n.linked_notes)) = [(13, [14]), (14, [])]) ∧
    (Reachable link_to_missing ∧
      link_to_missing.notes.map (fun n => (n.id, n.linked_notes)) = [(13, [999])] ∧
      get_linked_notes link_to_missing 13 = []) ∧
    ¬ (∀ s : DebateCore, Reachable s → ∀ na ∈ s.notes, ∀ b ∈ na.linked_notes,
        ∃ nb ∈ s.notes, nb.id = b ∧ na.id ∈ nb.linked_notes) := by
  have hr1 : Reachable link_before_create := reachable_run Reachable.init _
  have hr2 : Reachable link_to_missing := reachable_run Reachable.init _
  have h1 : link_before_create.notes.map (fun n => (n.id, n.linked_notes))
      = [(13, [14]), (14, [])] := by decide
  have h2 : link_to_missing.notes.map (fun n => (n.id, n.linked_notes)) = [(13, [999])] := by
    decide
  refine ⟨⟨hr1, h1⟩, ⟨hr2, h2, by decide⟩, ?_⟩
  intro hsym
  have hnotes : link_to_missing.notes
      = [{ id := 13, content := "first", topic_tag := "tag", created_at := 1, updated_at := 1,
           linked_notes := [999], note_type := "general" }] := by decide
  obtain ⟨nb, hnb, hid, _⟩ := hsym link_to_missing hr2
    { id := 13, content := "first", topic_tag := "tag", created_at := 1, updated_at := 1,
      linked_notes := [999], note_type := "general" } (by rw [hnotes]; simp) 999 (by simp)
  rw [hnotes] at hnb
  simp only [List.mem_singleton] at hnb
  subst hnb
  simp at hid

/-! ## Topics: complexity filter and append-only collections -/

theorem topicsInv_empty : TopicsInv empty :=
  ⟨fun _ h => (nomatch h), List.nodup_nil, fun _ h => (nomatch h)⟩

theorem topics_step_of_not_create (s : DebateCore) (op : Op) (h : op.is_create_topic = false) :
    (step s op).topics = s.topics := by
  cases op <;>
    simp [Op.is_create_topic, step, create_note, create_drawing, link_notes, record_belief,
      add_stroke_to_drawing] at h ⊢

theorem beliefs_step_of_not_record (s : DebateCore) (op : Op) (h : op.is_record_belief = false) :
    (step s op).beliefs = s.beliefs := by
  cases op <;>
    simp [Op.is_record_belief, step, create_topic, create_note, create_drawing, link_notes,
      add_stroke_to_drawing] at h ⊢

theorem topicsInv_step {s : DebateCore} (h : TopicsInv s) (op : Op) : TopicsInv (step s op) := by
  by_cases hc : op.is_create_topic = false
  · have ht := topics_step_of_not_create s op hc
    have hn := next_id_le_step s op
    refine ⟨?_, by rw [ht]; exact h.ids_nodup, by rw [ht]; exact h.levels⟩
    intro t hmem
    rw [ht] at hmem
    exact lt_of_lt_of_le (h.lt_next t hmem) hn
  · cases op with
    | create_topic title description complexity category =>
      refine ⟨?_, ?_, ?_⟩
      · intro t hmem
        simp only [step, create_topic, List.mem_append, List.mem_singleton] at hmem ⊢
        rcases hmem with hmem | hmem
        · have := h.lt_next t hmem
          omega
        · subst hmem
          simp
      · simp only [step, create_topic, List.map_append, List.map_cons, List.map_nil]
        rw [List.nodup_append]
        refine ⟨h.ids_nodup, List.nodup_singleton _, ?_⟩
        intro i hi hi2
        rw [List.mem_singleton] at hi2
        obtain ⟨t, ht, hid⟩ := List.mem_map.mp hi
        have := h.lt_next t ht
        omega
      · intro t hmem
        simp only [step, create_topic, List.mem_append, List.mem_singleton] at hmem
        rcases hmem with hmem | hmem
        · exact h.levels t hmem
        · subst hmem
          simp only [clamp]
          omega
    | _ => simp [Op.is_create_topic] at hc

theorem topicsInv_run {s : DebateCore} (h : TopicsInv s) (ops : List Op) :
    TopicsInv (run s ops) := by
  induction ops generalizing s with
  | nil => exact h
  | cons op ops ih => exact ih (topicsInv_step h op)

theorem topicsInv_init : TopicsInv init := by
  rw [init_eq_run]
  exact topicsInv_run topicsInv_empty _

theorem topicsInv_of_reachable {s : DebateCore} (h : Reachable s) : TopicsInv s := by
  induction h with
  | init => exact topicsInv_init
  | step s op _ ih => exact topicsInv_step ih op

/-- C11: `get_topics_by_complexity(min, max)` is exactly the topic collection
filtered, in insertion order, by `min ≤ complexity_level ≤ max` (both bounds
inclusive), hence a sublist of the collection; it is empty whenever
`min > max`, and in every reachable state (where all levels lie in [1,10]) it
is also empty whenever `max < 1` or `min > 10`. -/
theorem C11_complexity_range (s : DebateCore) (min_level max_level : Int) :
    get_topics_by_complexity s min_level max_level
        = s.topics.filter (fun t =>
            decide (min_level ≤ t.complexity_level ∧ t.complexity_level ≤ max_level)) ∧
    (get_topics_by_complexity s min_level max_level).Sublist s.topics ∧
    (min_level > max_level → get_topics_by_complexity s min_level max_level = []) ∧
    (Reachable s → max_level < 1 ∨ min_level > 10 →
        get_topics_by_complexity s min_level max_level = []) := by
  have heq : get_topics_by_complexity s min_level max_level
      = s.topics.filter (fun t =>
          decide (min_level ≤ t.complexity_level ∧ t.complexity_level ≤ max_level)) := by
    unfold get_topics_by_complexity
    apply List.filter_congr
    intro t _
    simp [Bool.decide_and]
  refine ⟨heq, ?_, ?_, ?_⟩
  · rw [heq]
    exact List.filter_sublist _
  · intro hgt
    rw [heq, List.filter_eq_nil_iff]
    intro t _
    simp only [decide_eq_true_eq]
    omega
  · intro hr hout
    rw [heq, List.filter_eq_nil_iff]
    intro t ht
    have := (topicsInv_of_reachable hr).levels t ht
    simp only [decide_eq_true_eq]
    omega

theorem topics_prefix_step (s : DebateCore) (op : Op) : s.topics <+: (step s op).topics := by
  by_cases hc : op.is_create_topic = false
  · rw [topics_step_of_not_create s op hc]
  · cases op <;> simp [Op.is_create_topic] at hc
    simp [step, create_topic]

theorem beliefs_prefix_step (s : DebateCore) (op : Op) : s.beliefs <+: (step s op).beliefs := by
  by_cases hc : op.is_record_belief = false
  · rw [beliefs_step_of_not_record s op hc]
  · cases op <;> simp [Op.is_record_belief] at hc
    simp [step, record_belief]

theorem prefix_run (s : DebateCore) (ops : List Op) :
    s.topics <+: (run s ops).topics ∧ s.beliefs <+: (run s ops).beliefs := by
  induction ops generalizing s with
  | nil => exact ⟨List.prefix_refl _, List.prefix_refl _⟩
  | cons op ops ih =>
    exact ⟨(topics_prefix_step s op).trans (ih _).1, (beliefs_prefix_step s op).trans (ih _).2⟩

/-- C15: for every state and every public call, the topic list before the call
is a prefix of the topic list after it and the belief list before the call is
a prefix of the belief list after it (so this also holds over every sequence
of calls); the topic list grows exactly on `create_topic` and the belief list
exactly on `record_belief`, each time by one element. -/
theorem C15_append_only (s : DebateCore) (op : Op) :
    s.topics <+: (step s op).topics ∧
    s.beliefs <+: (step s op).beliefs ∧
    (step s op).topics.length = s.topics.length + (if op.is_create_topic then 1 else 0) ∧
    (step s op).beliefs.length = s.beliefs.length + (if op.is_record_belief then 1 else 0) ∧
    (∀ ops : List Op, s.topics <+: (run s ops).topics ∧ s.beliefs <+: (run s ops).beliefs) := by
  refine ⟨topics_prefix_step s op, beliefs_prefix_step s op, ?_, ?_, prefix_run s⟩
  · cases op <;>
      simp [Op.is_create_topic, step, create_topic, create_note, create_drawing, link_notes,
        record_belief, add_stroke_to_drawing]
  · cases op <;>
      simp [Op.is_record_belief, step, create_topic, create_note, create_drawing, link_notes,
        record_belief, add_stroke_to_drawing]

/-! ## Re-linking -/

theorem push_link_of_mem (n : Note) (x : Int) (h : x ∈ n.linked_notes) : push_link n x = n := by
  unfold push_link
  rw [if_pos h]

theorem link_step_idem (a b : Int) (n : Note) :
    link_step a b (link_step a b n) = link_step a b n := by
  rw [link_step_eq a b (link_step a b n), link_step_id]
  by_cases h1 : n.id = a <;> by_cases h2 : n.id = b
  · rw [if_pos h1, if_pos h2, push_link_of_mem _ b (link_step_mem_left a b n h1),
      push_link_of_mem _ a (link_step_mem_right a b n h2)]
  · rw [if_pos h1, if_neg h2, push_link_of_mem _ b (link_step_mem_left a b n h1)]
  · rw [if_neg h1, if_pos h2, push_link_of_mem _ a (link_step_mem_right a b n h2)]
  · rw [if_neg h1, if_neg h2]

theorem link_notes_idem (s : DebateCore) (a b : Int) :
    link_notes (link_notes s a b) a b = link_notes s a b := by
  simp [link_notes, List.map_map, Function.comp, link_step_idem]

/-- C17: in every reachable state no note's `linked_notes` holds an id twice,
and `link_notes` is idempotent for all ids `a`, `b` (equal ids and ids without
a note included): the state after `link_notes(a, b); link_notes(a, b)` is the
state after a single `link_notes(a, b)`. -/
theorem C17_no_duplicate_links (s : DebateCore) (a b : Int) :
    (Reachable s → ∀ n ∈ s.notes, n.linked_notes.Nodup) ∧
    link_notes (link_notes s a b) a b = link_notes s a b ∧
    run s [Op.link_notes a b, Op.link_notes a b] = run s [Op.link_notes a b] :=
  ⟨fun hr => (notesInv_of_reachable hr).links_nodup, link_notes_idem s a b,
    link_notes_idem s a b⟩

/-! ## Current belief against the history -/

theorem scan_none_iff_history_nil (s : DebateCore) (t : Int) :
    s.beliefs.reverse.find? (fun b => b.topic_id = t) = none ↔ get_belief_history s t = [] := by
  rw [reverse_find_eq_getLast_filter]
  unfold get_belief_history
  exact List.getLast?_eq_none_iff

/-- C18 as stated fails: after `record_belief(1, 5, "neutral")` at clock
reading 100 the history of topic 1 is not empty, yet `get_user_belief(1)` has
topic 1, conviction 5 and position "neutral" at every clock reading, and asked
at clock reading 100 it is exactly the default sentinel value; so "returns the
sentinel" is not equivalent to "the history is empty". -/
theorem C18_sentinel_with_history :
    get_belief_history neutral_recorded 1 ≠ [] ∧
    (∀ now : Time,
        (get_user_belief neutral_recorded 1 now).topic_id = 1 ∧
        (get_user_belief neutral_recorded 1 now).conviction_level = 5 ∧
        (get_user_belief neutral_recorded 1 now).position = "neutral") ∧
    ¬ (get_user_belief neutral_recorded 1 100
          = { topic_id := 1, conviction_level := 5, position := "neutral", recorded_at := 100 } ↔
        get_belief_history neutral_recorded 1 = []) := by
  refine ⟨by decide, fun now => ⟨rfl, rfl, rfl⟩, by decide⟩

/-- C18 (amended): for every state and topic `t`, a non-empty
`get_belief_history(t)` makes `get_user_belief(t)` its last element; an empty
one makes it the default sentinel; and the backward scan finds no record (the
default branch is taken) exactly when `get_belief_history(t)` is empty. -/
theorem C18_most_recent_wins (s : DebateCore) (t : Int) (now : Time) :
    (get_belief_history s t ≠ [] →
        some (get_user_belief s t now) = (get_belief_history s t).getLast?) ∧
    (get_belief_history s t = [] →
        get_user_belief s t now
          = { topic_id := t, conviction_level := 5, position := "neutral",
              recorded_at := now }) ∧
    (s.beliefs.reverse.find? (fun b => b.topic_id = t) = none ↔
        get_belief_history s t = []) := by
  refine ⟨?_, get_user_belief_of_history_nil now, scan_none_iff_history_nil s t⟩
  intro hne
  cases hl : (get_belief_history s t).getLast? with
  | none => exact absurd (List.getLast?_eq_none_iff.mp hl) hne
  | some b => rw [get_user_belief_eq_getLast now hl]

/-! ## Queries that match everything -/

theorem note_searchable_eq (note : Note) :
    (to_lower (note_text note.content note.topic_tag)).data = note_searchable note := by
  simp [to_lower, note_text, note_searchable]

theorem search_notes_eq_filter (s : DebateCore) (q : String) :
    search_notes s q
      = s.notes.filter (fun note =>
          decide (q.data.map tolower <:+: note_searchable note)) := by
  unfold search_notes
  apply List.filter_congr
  intro note _
  have h := findChars_isSome_iff
    (to_lower (note_text note.content note.topic_tag)).data
    (to_lower q).data
  rw [note_searchable_eq] at h
  simp only [find]
  rw [Bool.eq_iff_iff, note_searchable_eq, h]
  simp [to_lower]

theorem space_infix_topic_searchable (topic : Topic) : [' '] <:+: topic_searchable topic := by
  refine ⟨topic.title.data.map tolower,
    (topic.description.data ++ [' '] ++ topic.category.data).map tolower, ?_⟩
  have h : tolower ' ' = ' ' := by decide
  simp [topic_searchable, h]

/-- C20: for every state, `search_topics("")` is the whole topic collection and
`search_notes("")` the whole note collection, in insertion order; and
`search_topics(" ")` is also the whole topic collection, because every
searched text contains a separator space. -/
theorem C20_empty_query_matches_all (s : DebateCore) :
    search_topics s "" = s.topics ∧
    search_notes s "" = s.notes ∧
    search_topics s " " = s.topics := by
  refine ⟨?_, ?_, ?_⟩
  · rw [search_topics_eq_filter, List.filter_eq_self]
    intro t _
    simp
  · rw [search_notes_eq_filter, List.filter_eq_self]
    intro n _
    simp
  · rw [search_topics_eq_filter, List.filter_eq_self]
    intro t _
    have h : (" " : String).data.map tolower = [' '] := by decide
    rw [h]
    simpa using space_infix_topic_searchable t

/-! ## Create a note, then search for it -/

theorem mem_search_notes_iff (s : DebateCore) (q : String) (n : Note) :
    n ∈ search_notes s q ↔ n ∈ s.notes ∧ q.data.map tolower <:+: note_searchable n := by
  rw [search_notes_eq_filter, List.mem_filter]
  simp

theorem search_notes_create (s : DebateCore) (content tag type : String) (now : Time)
    (q : String)
    (h : q.data.map tolower <:+: (content.data ++ [' '] ++ tag.data).map tolower) :
    search_notes (create_note s content tag type now).1 q
      = search_notes s q ++
          [{ id := s.next_id, content := content, topic_tag := tag, created_at := now,
             updated_at := now, linked_notes := [], note_type := type }] := by
  rw [search_notes_eq_filter, search_notes_eq_filter]
  simp only [create_note, List.filter_append]
  congr 1
  rw [List.filter_eq_self]
  intro n hn
  rw [List.mem_singleton] at hn
  subst hn
  simpa [note_searchable] using h

theorem infix_content_or_tag {content tag q0 : List Char}
    (h : q0 <:+: content ∨ q0 <:+: tag) :
    q0.map tolower <:+: (content ++ [' '] ++ tag).map tolower := by
  apply List.IsInfix.map
  rcases h with h | h
  · exact h.trans ((List.prefix_append content ([' '] ++ tag)).isInfix.trans
      (by rw [List.append_assoc]))
  · exact h.trans (List.suffix_append (content ++ [' ']) tag).isInfix

/-- C12: when `lowercase(q)` is a contiguous substring of
`lowercase(content + " " + tag)`, the note made by
`create_note(content, tag, type)` (whose id is the returned id) is the last
element of `search_notes(q)` afterwards, the result being the old result plus
that note; this covers every `q` whose lowercase form is that of a substring
of `content` or of `tag`.  A note is returned by `search_notes` exactly when it
is stored and its lowercased `content + " " + topic_tag` contains
`lowercase(q)`, so a note whose text does not contain it is never returned and
the note type plays no part. -/
theorem C12_create_note_then_search (s : DebateCore) (content tag type : String) (now : Time)
    (q : String)
    (h : q.data.map tolower <:+: (content.data ++ [' '] ++ tag.data).map tolower) :
    (create_note s content tag type now).2 = s.next_id ∧
    search_notes (create_note s content tag type now).1 q
        = search_notes s q ++
            [{ id := s.next_id, content := content, topic_tag := tag, created_at := now,
               updated_at := now, linked_notes := [], note_type := type }] ∧
    (search_notes (create_note s content tag type now).1 q).getLast?
        = some { id := s.next_id, content := content, topic_tag := tag, created_at := now,
                 updated_at := now, linked_notes := [], note_type := type } ∧
    (∀ q0 q1 : String, (q0.data <:+: content.data ∨ q0.data <:+: tag.data) →
        q1.data.map tolower = q0.data.map tolower →
        (search_notes (create_note s content tag type now).1 q1).getLast?
          = some { id := s.next_id, content := content, topic_tag := tag, created_at := now,
                   updated_at := now, linked_notes := [], note_type := type }) ∧
    (∀ (s2 : DebateCore) (q2 : String) (n : Note),
        n ∈ search_notes s2 q2 ↔
          n ∈ s2.notes ∧ q2.data.map tolower <:+: note_searchable n) := by
  refine ⟨rfl, search_notes_create s content tag type now q h, ?_, ?_, mem_search_notes_iff⟩
  · rw [search_notes_create s content tag type now q h]
    simp
  · intro q0 q1 hsub hcase
    rw [search_notes_create s content tag type now q1
      (by rw [hcase]; exact infix_content_or_tag hsub)]
    simp

set_option maxRecDepth 100000 in
/-- Witness for C12: on the constructed store, a note "Carbon Tax works" tagged
"Climate" is found by the query "TAX W". -/
theorem C12_create_note_then_search_witness :
    (search_notes (create_note init "Carbon Tax works" "Climate" "claim" 7).1 "TAX W").getLast?
      = some { id := 13, content := "Carbon Tax works", topic_tag := "Climate", created_at := 7,
               updated_at := 7, linked_notes := [], note_type := "claim" } :=
  (C12_create_note_then_search init "Carbon Tax works" "Climate" "claim" 7 "TAX W"
    (by decide)).2.2.1

/-! ## Strokes -/

theorem drawingsInv_init : DrawingsInv init :=
  ⟨fun _ h => (nomatch h), List.nodup_nil⟩

theorem drawingsInv_step {s : DebateCore} (h : DrawingsInv s) (op : Op) :
    DrawingsInv (step s op) := by
  have hids := drawing_ids_step s op
  have hn := next_id_le_step s op
  constructor
  · intro i hi
    rw [hids, List.mem_append] at hi
    rcases hi with hi | hi
    · exact lt_of_lt_of_le (h.lt_next i hi) hn
    · exact (next_id_lt_step_of_drawing hi).2
  · rw [hids, List.nodup_append]
    refine ⟨h.ids_nodup, ?_, ?_⟩
    · cases returned_drawing_id s op <;> simp
    · intro i hi hi2
      have h1 := h.lt_next i hi
      have h2 := (next_id_lt_step_of_drawing hi2).1
      omega

theorem drawingsInv_of_reachable {s : DebateCore} (h : Reachable s) : DrawingsInv s := by
  induction h with
  | init => exact drawingsInv_init
  | step s op _ ih => exact drawingsInv_step ih op

theorem add_stroke_loop_of_not_mem (d : Int) (stroke : DrawingStroke) (ds : List Drawing)
    (h : d ∉ ds.map (fun x => x.id)) : add_stroke_loop d stroke ds = ds := by
  induction ds with
  | nil => rfl
  | cons x xs ih =>
    rw [List.map_cons, List.mem_cons, not_or] at h
    unfold add_stroke_loop
    rw [if_neg (fun e => h.1 e.symm), ih h.2]

theorem add_stroke_loop_split (d : Int) (stroke : DrawingStroke) (ds : List Drawing)
    (h : d ∈ ds.map (fun x => x.id)) :
    ∃ pre x post, ds = pre ++ x :: post ∧ x.id = d ∧ (∀ y ∈ pre, y.id ≠ d) ∧
      add_stroke_loop d stroke ds
        = pre ++ { x with strokes := x.strokes ++ [stroke] } :: post := by
  induction ds with
  | nil => cases h
  | cons x xs ih =>
    by_cases hx : x.id = d
    · refine ⟨[], x, xs, rfl, hx, fun _ hy => (nomatch hy), ?_⟩
      unfold add_stroke_loop
      rw [if_pos hx]
      rfl
    · rw [List.map_cons, List.mem_cons] at h
      rcases h with h | h
      · exact absurd h.symm hx
      · obtain ⟨pre, y, post, hsplit, hy, hpre, hloop⟩ := ih h
        refine ⟨x :: pre, y, post, by rw [hsplit]; rfl, hy, ?_, ?_⟩
        · intro z hz
          rcases List.mem_cons.mp hz with hz | hz
          · rw [hz]; exact hx
          · exact hpre z hz
        · unfold add_stroke_loop
          rw [if_neg hx, hloop]
          rfl

/-- C13: in a reachable state, `add_stroke_to_drawing(d, points, width, color)`
leaves topics, notes, beliefs, both indexes and the id counter unchanged.  If a
drawing has id `d`, the drawing list splits as `pre ++ x :: post` with `x` the
only drawing with id `d`, and the new list is `pre ++ x' :: post` where `x'` is
`x` with one stroke (the given points, width, color and the clock reading)
appended after its old strokes, its id, canvas size and note reference being
those of `x`.  If no drawing has id `d`, the whole state is unchanged. -/
theorem C13_add_stroke_frame (s : DebateCore) (hs : Reachable s) (d : Int)
    (points : List (Float32 × Float32)) (width : Float32) (color : String) (now : Time) :
    ((add_stroke_to_drawing s d points width color now).topics = s.topics ∧
      (add_stroke_to_drawing s d points width color now).notes = s.notes ∧
      (add_stroke_to_drawing s d points width color now).beliefs = s.beliefs ∧
      (add_stroke_to_drawing s d points width color now).topic_index = s.topic_index ∧
      (add_stroke_to_drawing s d points width color now).note_index = s.note_index ∧
      (add_stroke_to_drawing s d points width color now).next_id = s.next_id) ∧
    (d ∈ s.drawings.map (fun x => x.id) →
      ∃ pre x post, s.drawings = pre ++ x :: post ∧ x.id = d ∧
        (∀ y ∈ pre ++ post, y.id ≠ d) ∧
        (add_stroke_to_drawing s d points width color now).drawings
          = pre ++
              { id := x.id,
                strokes := x.strokes ++
                  [{ points := points, stroke_width := width, color := color,
                     timestamp := now }],
                canvas_width := x.canvas_width, canvas_height := x.canvas_height,
                associated_note_id := x.associated_note_id } :: post) ∧
    (d ∉ s.drawings.map (fun x => x.id) →
      add_stroke_to_drawing s d points width color now = s) := by
  refine ⟨⟨rfl, rfl, rfl, rfl, rfl, rfl⟩, ?_, ?_⟩
  · intro hd
    obtain ⟨pre, x, post, hsplit, hx, hpre, hloop⟩ :=
      add_stroke_loop_split d
        { points := points, stroke_width := width, color := color, timestamp := now }
        s.drawings hd
    refine ⟨pre, x, post, hsplit, hx, ?_, hloop⟩
    intro y hy
    rcases List.mem_append.mp hy with hy | hy
    · exact hpre y hy
    · intro hyd
      have hnd := (drawingsInv_of_reachable hs).ids_nodup
      rw [hsplit, List.map_append, List.map_cons] at hnd
      have hnd2 := (List.nodup_append.mp hnd).2.1
      rw [List.nodup_cons] at hnd2
      exact hnd2.1 (List.mem_map.mpr ⟨y, hy, by rw [hyd, hx]⟩)
  · intro hd
    unfold add_stroke_to_drawing
    simp only
    rw [add_stroke_loop_of_not_mem d _ s.drawings hd]

/-- Witness for C13: in `two_drawings` (drawings 14 and 15), a stroke added to
drawing 15 lands on that drawing only, and a stroke for the topic id 13
changes nothing. -/
theorem C13_add_stroke_frame_witness :
    Reachable two_drawings ∧
    (add_stroke_to_drawing two_drawings 15 [(⟨1⟩, ⟨2⟩), (⟨3⟩, ⟨4⟩)] ⟨5⟩ "red" 9).next_id
      = two_drawings.next_id ∧
    add_stroke_to_drawing two_drawings 13 [(⟨1⟩, ⟨2⟩), (⟨3⟩, ⟨4⟩)] ⟨5⟩ "red" 9 = two_drawings :=
  have hr : Reachable two_drawings := reachable_run Reachable.init _
  ⟨hr,
   (C13_add_stroke_frame two_drawings hr 15 [(⟨1⟩, ⟨2⟩), (⟨3⟩, ⟨4⟩)] ⟨5⟩ "red" 9).1.2.2.2.2.2,
   (C13_add_stroke_frame two_drawings hr 13 [(⟨1⟩, ⟨2⟩), (⟨3⟩, ⟨4⟩)] ⟨5⟩ "red" 9).2.2
     (by decide)⟩

/-! ## Resolving linked notes -/

theorem find_note_none_iff (notes : List Note) (id : Int) :
    find_note notes id = none ↔ id ∉ notes.map (fun n => n.id) := by
  constructor
  · intro h hmem
    obtain ⟨n, hn⟩ := find_note_of_mem_ids hmem
    rw [h] at hn
    cases hn
  · intro h
    cases hf : find_note notes id with
    | none => rfl
    | some n =>
      have := find_note_some hf
      exact absurd (List.mem_map.mpr ⟨n, this.2, this.1⟩) h

theorem resolved_ids (notes : List Note) (l : List Int) :
    (l.filterMap (fun i => find_note notes i)).map (fun m => m.id)
      = l.filter (fun i => decide (i ∈ notes.map (fun n => n.id))) := by
  induction l with
  | nil => rfl
  | cons x l ih =>
    cases hf : find_note notes x with
    | none =>
      have hx := (find_note_none_iff notes x).mp hf
      rw [List.filterMap_cons_none hf, ih, List.filter_cons_of_neg (by simpa using hx)]
    | some m =>
      have hm := find_note_some hf
      have hx : x ∈ notes.map (fun n => n.id) := List.mem_map.mpr ⟨m, hm.2, hm.1⟩
      rw [List.filterMap_cons_some hf, List.map_cons, ih,
        List.filter_cons_of_pos (by simpa using hx), hm.1]

theorem link_step_prefix (a b : Int) (n : Note) :
    n.linked_notes <+: (link_step a b n).linked_notes := by
  have hp : ∀ (m : Note) (x : Int), m.linked_notes <+: (push_link m x).linked_notes := by
    intro m x
    unfold push_link
    split
    · exact List.prefix_refl _
    · exact List.prefix_append _ _
  rw [link_step_eq]
  split <;> split
  · exact (hp n b).trans (hp _ a)
  · exact hp n b
  · exact hp n a
  · exact List.prefix_refl _

/-- C16: in a reachable state, when a note with id `n` is stored,
`get_linked_notes(n)` is that note's linked ids, in list order, each replaced
by the stored note with that id and the ids without a stored note dropped: the
ids of the result are the linked ids that are ids of stored notes, in the same
order, and every element of the result is a stored note.  When no note has id
`n` the result is empty.  The list order is the order in which links were
added: `link_notes` only ever appends to a note's linked ids. -/
theorem C16_get_linked_notes_resolves (s : DebateCore) (hs : Reachable s) (n : Int) :
    (∀ note ∈ s.notes, note.id = n →
        get_linked_notes s n
            = note.linked_notes.filterMap (fun i => s.notes.find? (fun m => m.id = i)) ∧
        (get_linked_notes s n).map (fun m => m.id)
            = note.linked_notes.filter (fun i => decide (i ∈ s.notes.map (fun m => m.id))) ∧
        (∀ m ∈ get_linked_notes s n, m ∈ s.notes ∧ m.id ∈ note.linked_notes)) ∧
    ((∀ note ∈ s.notes, note.id ≠ n) → get_linked_notes s n = []) ∧
    (∀ (a b : Int) (note : Note), note.linked_notes <+: (link_step a b note).linked_notes) := by
  refine ⟨?_, ?_, fun a b note => link_step_prefix a b note⟩
  · intro note hnote hid
    have hf := find_note_of_mem_nodup (notesInv_of_reachable hs).ids_nodup hnote
    rw [hid] at hf
    have heq : get_linked_notes s n
        = note.linked_notes.filterMap (fun i => find_note s.notes i) := by
      unfold get_linked_notes
      rw [hf]
    refine ⟨heq, ?_, ?_⟩
    · rw [heq, resolved_ids]
    · intro m hm
      rw [heq, List.mem_filterMap] at hm
      obtain ⟨i, hi, hfi⟩ := hm
      have := find_note_some hfi
      exact ⟨this.2, by rw [this.1]; exact hi⟩
  · intro hnone
    have hf : find_note s.notes n = none := by
      rw [find_note_none_iff]
      intro hmem
      obtain ⟨m, hm, hid⟩ := List.mem_map.mp hmem
      exact hnone m hm hid
    unfold get_linked_notes
    rw [hf]

/-- Witness for C16: in `link_before_create`, note 13 lists the id 14 and
`get_linked_notes(13)` is the stored note 14; no note has id 99. -/
theorem C16_get_linked_notes_resolves_witness :
    Reachable link_before_create ∧
    (get_linked_notes link_before_create 13).map (fun m => m.id)
      = [14] ∧
    get_linked_notes link_before_create 99 = [] :=
  have hr : Reachable link_before_create := reachable_run Reachable.init _
  ⟨hr,
   ((C16_get_linked_notes_resolves link_before_create hr 13).1
      { id := 13, content := "first", topic_tag := "tag", created_at := 1, updated_at := 1,
        linked_notes := [14], note_type := "general" } (by decide) rfl).2.1.trans (by decide),
   (C16_get_linked_notes_resolves link_before_create hr 99).2.1 (by decide)⟩

/-! ## The inverted indexes -/

theorem index_get_push (m : Index) (word : String) (id : Int) (w : String) :
    Index.get (Index.push m word id) w
      = if w = word then Index.get m w ++ [id] else Index.get m w := by
  induction m with
  | nil =>
    by_cases hw : w = word
    · subst hw
      simp [Index.push, Index.get]
    · have hw2 : ¬ word = w := fun e => hw e.symm
      simp [Index.push, Index.get, hw, hw2]
  | cons e m ih =>
    unfold Index.push
    by_cases he : e.1 = word
    · rw [if_pos he]
      by_cases hw : w = word
      · have hew : e.1 = w := he.trans hw.symm
        simp [Index.get, hew, hw]
      · have hew : ¬ e.1 = w := fun e2 => hw (e2.symm.trans he)
        simp [Index.get, hew, hw]
    · rw [if_neg he]
      by_cases hew : e.1 = w
      · have hw : ¬ w = word := fun e2 => he (hew.trans e2)
        simp [Index.get, hew, hw]
      · have h1 : Index.get (e :: Index.push m word id) w = Index.get (Index.push m word id) w := by
          simp [Index.get, hew]
        have h2 : Index.get (e :: m) w = Index.get m w := by
          simp [Index.get, hew]
        rw [h1, h2, ih]

theorem index_get_pushAll (m : Index) (ws : List String) (id : Int) (w : String) :
    Index.get (Index.pushAll m ws id) w = Index.get m w ++ List.replicate (ws.count w) id := by
  induction ws generalizing m with
  | nil => simp [Index.pushAll]
  | cons word ws ih =>
    have hstep : Index.pushAll m (word :: ws) id = Index.pushAll (Index.push m word id) ws id := rfl
    rw [hstep, ih, index_get_push, List.count_cons]
    by_cases hw : w = word
    · subst hw
      simp [List.replicate_succ]
    · have hw2 : (word == w) = false := by simpa using fun e => hw e.symm
      simp [hw, hw2]

theorem count_index_pushAll (m : Index) (ws : List String) (id : Int) (w : String) (i : Int) :
    (Index.get (Index.pushAll m ws id) w).count i
      = (Index.get m w).count i + (if id = i then ws.count w else 0) := by
  rw [index_get_pushAll, List.count_append, List.count_replicate]
  by_cases h : id = i
  · simp [h]
  · have h2 : (id == i) = false := by simpa using h
    simp [h, h2]

theorem link_step_text (a b : Int) (n : Note) :
    (link_step a b n).content = n.content ∧ (link_step a b n).topic_tag = n.topic_tag := by
  have hp : ∀ (m : Note) (x : Int),
      (push_link m x).content = m.content ∧ (push_link m x).topic_tag = m.topic_tag := by
    intro m x
    unfold push_link
    split <;> exact ⟨rfl, rfl⟩
  rw [link_step_eq]
  split <;> split
  · exact ⟨(hp _ a).1.trans (hp n b).1, (hp _ a).2.trans (hp n b).2⟩
  · exact hp n b
  · exact hp n a
  · exact ⟨rfl, rfl⟩

theorem link_step_token_count (a b : Int) (w : String) (n : Note) :
    note_token_count w (link_step a b n) = note_token_count w n := by
  unfold note_token_count
  rw [(link_step_text a b n).1, (link_step_text a b n).2]

theorem note_sum_link_notes (s : DebateCore) (a b : Int) (w : String) (i : Int) :
    (((link_notes s a b).notes.filter (fun n => n.id = i)).map (note_token_count w)).sum
      = ((s.notes.filter (fun n => n.id = i)).map (note_token_count w)).sum := by
  simp only [link_notes]
  generalize s.notes = l
  induction l with
  | nil => rfl
  | cons n l ih =>
    rw [List.map_cons]
    by_cases h : n.id = i
    · have h2 : (link_step a b n).id = i := by rw [link_step_id]; exact h
      rw [List.filter_cons_of_pos (by simpa using h2), List.filter_cons_of_pos (by simpa using h),
        List.map_cons, List.map_cons, List.sum_cons, List.sum_cons, ih, link_step_token_count]
    · have h2 : ¬ (link_step a b n).id = i := by rw [link_step_id]; exact h
      rw [List.filter_cons_of_neg (by simpa using h2), List.filter_cons_of_neg (by simpa using h),
        ih]

theorem indexInv_empty : IndexInv empty :=
  ⟨fun _ _ => rfl, fun _ _ => rfl⟩

theorem indexInv_step {s : DebateCore} (h : IndexInv s) (op : Op) : IndexInv (step s op) := by
  cases op with
  | create_topic title description complexity category =>
    refine ⟨?_, h.note⟩
    intro w i
    simp only [step, create_topic]
    rw [count_index_pushAll, h.topic w i, List.filter_append, List.map_append, List.sum_append]
    congr 1
    by_cases hi : s.next_id = i
    · rw [if_pos hi, List.filter_cons_of_pos (by simpa using hi)]
      simp [topic_token_count]
    · rw [if_neg hi, List.filter_cons_of_neg (by simpa using hi)]
      simp
  | create_note content topic_tag type now =>
    refine ⟨h.topic, ?_⟩
    intro w i
    simp only [step, create_note]
    rw [count_index_pushAll, h.note w i, List.filter_append, List.map_append, List.sum_append]
    congr 1
    by_cases hi : s.next_id = i
    · rw [if_pos hi, List.filter_cons_of_pos (by simpa using hi)]
      simp [note_token_count]
    · rw [if_neg hi, List.filter_cons_of_neg (by simpa using hi)]
      simp
  | link_notes a b =>
    refine ⟨h.topic, ?_⟩
    intro w i
    have hidx : (step s (Op.link_notes a b)).note_index = s.note_index := rfl
    have hst : step s (Op.link_notes a b) = link_notes s a b := rfl
    rw [hidx, h.note w i, hst, note_sum_link_notes]
  | _ => exact ⟨h.topic, h.note⟩

theorem indexInv_run {s : DebateCore} (h : IndexInv s) (ops : List Op) :
    IndexInv (run s ops) := by
  induction ops generalizing s with
  | nil => exact h
  | cons op ops ih => exact ih (indexInv_step h op)

theorem indexInv_init : IndexInv init := by
  rw [init_eq_run]
  exact indexInv_run indexInv_empty _

theorem indexInv_of_reachable {s : DebateCore} (h : Reachable s) : IndexInv s := by
  induction h with
  | init => exact indexInv_init
  | step s op _ ih => exact indexInv_step ih op

theorem filter_eq_find_toList {α : Type} (f : α → Int) (l : List α)
    (hnd : (l.map f).Nodup) (i : Int) :
    l.filter (fun x => f x = i) = (l.find? (fun x => f x = i)).toList := by
  induction l with
  | nil => rfl
  | cons x l ih =>
    rw [List.map_cons, List.nodup_cons] at hnd
    by_cases hx : f x = i
    · rw [List.filter_cons_of_pos (by simpa using hx), List.find?_cons_of_pos _ (by simpa using hx)]
      have hnil : l.filter (fun y => f y = i) = [] := by
        rw [List.filter_eq_nil_iff]
        intro y hy
        simp only [decide_eq_true_eq]
        intro hyi
        exact hnd.1 (List.mem_map.mpr ⟨y, hy, hyi.trans hx.symm⟩)
      rw [hnil]
      rfl
    · rw [List.filter_cons_of_neg (by simpa using hx), List.find?_cons_of_neg _ (by simpa using hx)]
      exact ih hnd.2

theorem wordsAux_eq_splitOnP (cs cur : List Char) :
    wordsAux cs cur
      = ((cs.splitOnP isspace).modifyHead (fun piece => cur ++ piece)).filter
          (fun piece => decide (piece ≠ [])) := by
  induction cs generalizing cur with
  | nil =>
    by_cases hc : cur = [] <;> simp [wordsAux, List.splitOnP_nil, List.modifyHead, hc]
  | cons c cs ih =>
    rw [List.splitOnP_cons]
    unfold wordsAux
    by_cases hsp : isspace c = true
    · have h0 := ih []
      have hid : (fun piece : List Char => [] ++ piece) = id := by
        funext piece
        rfl
      have hmh : ∀ l : List (List Char), l.modifyHead id = l := by
        intro l
        cases l <;> rfl
      rw [hid, hmh] at h0
      rw [if_pos hsp, if_pos hsp, h0]
      by_cases hc : cur = [] <;> simp [List.modifyHead, hc]
    · rw [if_neg hsp, if_neg hsp, ih (cur ++ [c]), List.modifyHead_modifyHead]
      congr 2
      funext piece
      simp

theorem tokens_eq_spec_tokens (text : String) : tokens text = spec_tokens text := by
  unfold tokens spec_tokens
  rw [wordsAux_eq_splitOnP]
  have hid : (fun piece : List Char => [] ++ piece) = id := by
    funext piece
    rfl
  have hmh : ∀ l : List (List Char), l.modifyHead id = l := by
    intro l
    cases l <;> rfl
  rw [hid, hmh]
  rfl

theorem topic_index_count {s : DebateCore} (hs : Reachable s) (w : String) (i : Int) :
    (Index.get s.topic_index w).count i
      = ((s.topics.find? (fun t => t.id = i)).map (topic_token_count w)).getD 0 := by
  rw [(indexInv_of_reachable hs).topic w i,
    filter_eq_find_toList (fun t => t.id) s.topics (topicsInv_of_reachable hs).ids_nodup i]
  cases s.topics.find? (fun t => t.id = i) <;> simp

theorem note_index_count {s : DebateCore} (hs : Reachable s) (w : String) (i : Int) :
    (Index.get s.note_index w).count i
      = ((find_note s.notes i).map (note_token_count w)).getD 0 := by
  rw [(indexInv_of_reachable hs).note w i,
    filter_eq_find_toList (fun n => n.id) s.notes (notesInv_of_reachable hs).ids_nodup i]
  unfold find_note
  cases s.notes.find? (fun n => n.id = i) <;> simp

/-- C14: in every reachable state, for every token `w` and id `i`, the number
of occurrences of `i` in `topic_index[w]` is the number of occurrences of `w`
among the tokens of `title + " " + description + " " + category` of the topic
with id `i`, and 0 when no topic has id `i`; likewise `note_index[w]` against
the tokens of `content + " " + topic_tag` of the note with id `i`.  The tokens
are the non-empty pieces of the text split on whitespace, each lowercased. -/
theorem C14_index_consistency (s : DebateCore) (hs : Reachable s) (w : String) (i : Int) :
    (Index.get s.topic_index w).count i
        = ((s.topics.find? (fun t => t.id = i)).map (fun t =>
            (spec_tokens (t.title ++ " " ++ t.description ++ " " ++ t.category)).count w)).getD 0 ∧
    (Index.get s.note_index w).count i
        = ((s.notes.find? (fun n => n.id = i)).map (fun n =>
            (spec_tokens (n.content ++ " " ++ n.topic_tag)).count w)).getD 0 ∧
    (∀ text : String, tokens text = spec_tokens text) := by
  refine ⟨?_, ?_, tokens_eq_spec_tokens⟩
  · rw [topic_index_count hs]
    congr 2
    funext t
    simp only [topic_token_count, topic_text, tokens_eq_spec_tokens]
  · rw [note_index_count hs]
    congr 2
    funext n
    simp only [note_token_count, note_text, tokens_eq_spec_tokens]

set_option maxRecDepth 1000000 in
/-- Witness for C14: on the constructed store the seed topic "Universal
Healthcare" (id 2) is listed three times under "healthcare". -/
theorem C14_index_consistency_witness :
    Reachable init ∧
    Index.get init.topic_index "healthcare" = [2, 2, 2] ∧
    (Index.get init.topic_index "healthcare").count 2 = 3 :=
  ⟨Reachable.init, by decide,
   (C14_index_consistency init Reachable.init "healthcare" 2).1.trans (by decide)⟩

/-! ## Whole-token matches are substring matches -/

theorem wordsAux_infix (cs cur : List Char) :
    ∀ word ∈ wordsAux cs cur, word <:+: cur ++ cs := by
  induction cs generalizing cur with
  | nil =>
    intro word hw
    unfold wordsAux at hw
    by_cases hc : cur = []
    · simp [hc] at hw
    · simp [hc] at hw
      subst hw
      simp
  | cons c cs ih =>
    intro word hw
    have htail : ∀ word ∈ wordsAux cs [], word <:+: cur ++ c :: cs := by
      intro word hword
      have h1 : word <:+: cs := by simpa using ih [] word hword
      exact h1.trans ((List.suffix_append (cur ++ [c]) cs).isInfix.trans (by simp))
    unfold wordsAux at hw
    by_cases hsp : isspace c = true
    · rw [if_pos hsp] at hw
      by_cases hc : cur = []
      · rw [if_pos hc] at hw
        exact htail word hw
      · rw [if_neg hc] at hw
        rcases List.mem_cons.mp hw with hw | hw
        · rw [hw]
          exact (List.prefix_append cur (c :: cs)).isInfix
        · exact htail word hw
    · rw [if_neg hsp] at hw
      have := ih (cur ++ [c]) word hw
      simpa using this

theorem tokens_infix {text w : String} (h : w ∈ tokens text) :
    w.data.map tolower <:+: text.data.map tolower := by
  unfold tokens at h
  obtain ⟨word, hword, rfl⟩ := List.mem_map.mp h
  have hinf : word <:+: text.data := by simpa using wordsAux_infix text.data [] word hword
  have hlow : (to_lower ⟨word⟩).data.map tolower = word.map tolower := by
    have h : tolower ∘ tolower = tolower := funext tolower_tolower
    simp [to_lower, h]
  rw [hlow]
  exact List.IsInfix.map tolower hinf

theorem mem_search_topics_iff (s : DebateCore) (q : String) (t : Topic) :
    t ∈ search_topics s q ↔ t ∈ s.topics ∧ q.data.map tolower <:+: topic_searchable t := by
  rw [search_topics_eq_filter, List.mem_filter]
  simp

theorem indexed_topic_found {s : DebateCore} (hs : Reachable s) {w : String} {i : Int}
    (h : i ∈ Index.get s.topic_index w) :
    ∃ t ∈ search_topics s w, t.id = i ∧ ∀ t2 ∈ s.topics, t2.id = i → t2 = t := by
  have hcount := topic_index_count hs w i
  have hpos : 0 < (Index.get s.topic_index w).count i := List.count_pos_iff.mpr h
  have hfl := filter_eq_find_toList (fun t => t.id) s.topics
    (topicsInv_of_reachable hs).ids_nodup i
  cases hf : s.topics.find? (fun t => t.id = i) with
  | none =>
    rw [hf] at hcount
    simp at hcount
    omega
  | some t =>
    rw [hf] at hcount hfl
    simp only [Option.map_some', Option.getD_some] at hcount
    have hid := List.find?_some hf
    simp only [decide_eq_true_eq] at hid
    have hmem := List.mem_of_find?_eq_some hf
    have htok : w ∈ tokens (topic_text t.title t.description t.category) := by
      apply List.count_pos_iff.mp
      unfold topic_token_count at hcount
      omega
    refine ⟨t, (mem_search_topics_iff s w t).mpr ⟨hmem, ?_⟩, hid, ?_⟩
    · rw [← topic_searchable_eq]
      exact tokens_infix htok
    · intro t2 ht2 hid2
      have : t2 ∈ s.topics.filter (fun t => t.id = i) :=
        List.mem_filter.mpr ⟨ht2, by simpa using hid2⟩
      rw [hfl] at this
      simpa using this

theorem indexed_note_found {s : DebateCore} (hs : Reachable s) {w : String} {i : Int}
    (h : i ∈ Index.get s.note_index w) :
    ∃ n ∈ search_notes s w, n.id = i ∧ ∀ n2 ∈ s.notes, n2.id = i → n2 = n := by
  have hcount := note_index_count hs w i
  have hpos : 0 < (Index.get s.note_index w).count i := List.count_pos_iff.mpr h
  cases hf : find_note s.notes i with
  | none =>
    rw [hf] at hcount
    simp at hcount
    omega
  | some n =>
    rw [hf] at hcount
    simp only [Option.map_some', Option.getD_some] at hcount
    have hn := find_note_some hf
    have htok : w ∈ tokens (note_text n.content n.topic_tag) := by
      apply List.count_pos_iff.mp
      unfold note_token_count at hcount
      omega
    refine ⟨n, (mem_search_notes_iff s w n).mpr ⟨hn.2, ?_⟩, hn.1, ?_⟩
    · rw [← note_searchable_eq]
      exact tokens_infix htok
    · intro n2 hn2 hid2
      have h2 := find_note_of_mem_nodup (notesInv_of_reachable hs).ids_nodup hn2
      rw [hid2, hf] at h2
      exact (Option.some.inj h2).symm

/-- C19: in every reachable state, for every token `w`, every id `i` listed in
`topic_index[w]` is the id of a stored topic (the only one with that id) which
`search_topics(w)` returns, and every id `i` listed in `note_index[w]` is the
id of a stored note (the only one with that id) which `search_notes(w)`
returns. -/
theorem C19_index_within_substring (s : DebateCore) (hs : Reachable s) (w : String) (i : Int) :
    (i ∈ Index.get s.topic_index w →
        ∃ t ∈ search_topics s w, t.id = i ∧ ∀ t2 ∈ s.topics, t2.id = i → t2 = t) ∧
    (i ∈ Index.get s.note_index w →
        ∃ n ∈ search_notes s w, n.id = i ∧ ∀ n2 ∈ s.notes, n2.id = i → n2 = n) :=
  ⟨indexed_topic_found hs, indexed_note_found hs⟩

set_option maxRecDepth 1000000 in
/-- Witness for C19: in `two_notes` the id 14 is listed under "second" in the
note index, and `search_notes("second")` returns the note with id 14. -/
theorem C19_index_within_substring_witness :
    Reachable two_notes ∧
    (14 : Int) ∈ Index.get two_notes.note_index "second" ∧
    ∃ n ∈ search_notes two_notes "second", n.id = 14 ∧
      ∀ n2 ∈ two_notes.notes, n2.id = 14 → n2 = n :=
  have hr : Reachable two_notes := reachable_run Reachable.init _
  have hm : (14 : Int) ∈ Index.get two_notes.note_index "second" := by decide
  ⟨hr, hm, (C19_index_within_substring two_notes hr "second" 14).2 hm⟩

end DebateCore

end DebatePlatform
